import Mathlib

/-!
Verification of the filesystem-endpoint URI codec of
`lib/charms/filesystem_client/v0/filesystem_info.py`.

The codec is built on Python 3.11's `urllib.parse`; the relevant fragment of
that library (`urlparse`/`urlsplit`, the `username`/`hostname` netloc
properties, `quote`, `unquote`, `parse_qs`, `urlencode`, `urlunsplit`) is
embedded here over `List Char`, together with the repository's own
definitions (`_UriData`, `_hostinfo`, `NfsInfo`, `CephfsInfo`,
`_uri_to_fs_info`).

Modelling notes, valid for every definition below:
* Python strings are modelled as `List Char` (`PyStr`).  All reasoning is
  about the ASCII fragment: `unquote`'s UTF-8 decoding of multi-byte
  percent-escape runs, `str.lower()` on non-ASCII letters, and
  `_checknetloc`'s NFKC check for non-ASCII netlocs are not modelled
  (each percent-escaped byte becomes the character of its code point, and
  lowering is ASCII `Char.toLower`).  Every concrete input appearing in a
  theorem is ASCII, and universally quantified statements restrict the
  character sets by hypothesis.
* Python exceptions are modelled by `Except`; the exception classes and
  their message strings are modelled by `FsError`/`ErrMsg`, one `ErrMsg`
  constructor per `raise` site, with `ErrMsg.render` producing the exact
  message text of the source.
-/

deriving instance DecidableEq for Except

namespace FsInfo

/-- Python `str`, modelled as a list of characters (ASCII fragment). -/
abbrev PyStr := List Char

/-- Find the index of the first occurrence of `c` (Python `str.find` for a
single-character needle, `-1` becoming `none`). -/
def pyFind (c : Char) : PyStr → Option Nat
  | [] => none
  | a :: rest => if a = c then some 0 else (pyFind c rest).map (· + 1)

/-- Split at the first occurrence of the (non-empty) separator substring
`sep`: Python `s.split(sep, 1)` when it produces two parts, `none` when the
separator does not occur. -/
def splitOnceSub (sep : PyStr) : PyStr → Option (PyStr × PyStr)
  | [] => none
  | c :: rest =>
    if sep.isPrefixOf (c :: rest) then some ([], List.drop sep.length (c :: rest))
    else (splitOnceSub sep rest).map (fun p => (c :: p.1, p.2))

/-- Python `s.split(sep)` for a single-character separator: splitting the
empty string yields `[""]`.  This is exactly `List.splitOn`. -/
def pySplitChar (sep : Char) (s : PyStr) : List PyStr :=
  s.splitOn sep

/-- Python `s.partition(sep)` for a single-character separator:
`(before, found, after)`. -/
def pyPartition (sep : Char) (s : PyStr) : PyStr × Bool × PyStr :=
  match splitOnceSub [sep] s with
  | some (a, b) => (a, true, b)
  | none => (s, false, [])

/-- Python `s.rpartition(sep)` for a single-character separator: split at the
last occurrence; `(before, found, after)`, with `("", False, s)` when the
separator does not occur. -/
def pyRPartition (sep : Char) (s : PyStr) : PyStr × Bool × PyStr :=
  match splitOnceSub [sep] s.reverse with
  | some (a, b) => (b.reverse, true, a.reverse)
  | none => ([], false, s)

/-- ASCII lowercasing, Python `str.lower()` on the ASCII fragment. -/
def pyLower (s : PyStr) : PyStr := s.map Char.toLower

/-- The value of an ASCII hex digit, accepting both cases. -/
def hexVal (c : Char) : Option Nat :=
  if '0' ≤ c ∧ c ≤ '9' then some (c.toNat - '0'.toNat)
  else if 'a' ≤ c ∧ c ≤ 'f' then some (c.toNat - 'a'.toNat + 10)
  else if 'A' ≤ c ∧ c ≤ 'F' then some (c.toNat - 'A'.toNat + 10)
  else none

/-- Uppercase hex digit of `n < 16`, as used by `urllib.parse.quote`'s
`'%{:02X}'` byte quoter. -/
def hexDigitUpper (n : Nat) : Char :=
  if n < 10 then Char.ofNat ('0'.toNat + n) else Char.ofNat ('A'.toNat + n - 10)

/-- `'%XX'` escape of the byte `n`. -/
def pctEncodeByte (n : Nat) : PyStr :=
  ['%', hexDigitUpper (n / 16), hexDigitUpper (n % 16)]

/-- `urllib.parse._ALWAYS_SAFE`: ASCII letters, digits, and `_.-~`. -/
def alwaysSafe (c : Char) : Bool :=
  c.isAlpha || c.isDigit || c = '_' || c = '.' || c = '-' || c = '~'

/-- One character of `urllib.parse.quote`: kept when always-safe or in
`safe`, `%XX`-escaped otherwise (ASCII fragment: one byte per char). -/
def quoteChar (safe : List Char) (c : Char) : PyStr :=
  if alwaysSafe c || safe.contains c then [c] else pctEncodeByte c.toNat

/-- `urllib.parse.quote(s, safe)` on the ASCII fragment. -/
def pyQuote (safe : List Char) (s : PyStr) : PyStr :=
  (s.map (quoteChar safe)).flatten

/-- `urllib.parse.quote_plus(s, safe)`: when the input has a space, quote
with space safe and then replace spaces by `+`. -/
def pyQuotePlus (safe : List Char) (s : PyStr) : PyStr :=
  if ' ' ∈ s then
    (pyQuote (safe ++ [' ']) s).map (fun c => if c = ' ' then '+' else c)
  else pyQuote safe s

/-- `urllib.parse.unquote` on the ASCII fragment: each valid `%hh` escape
(hex digits of either case) becomes the character of the byte's code point;
invalid escapes are kept verbatim. -/
def pyUnquote : PyStr → PyStr
  | [] => []
  | '%' :: a :: b :: rest2 =>
    match hexVal a, hexVal b with
    | some ha, some hb => Char.ofNat (16 * ha + hb) :: pyUnquote rest2
    | _, _ => '%' :: pyUnquote (a :: b :: rest2)
  | '%' :: rest => '%' :: pyUnquote rest
  | c :: rest => c :: pyUnquote rest

/-- `urllib.parse.unquote_plus`: replace `+` by space, then unquote. -/
def pyUnquotePlus (s : PyStr) : PyStr :=
  pyUnquote (s.map (fun c => if c = '+' then ' ' else c))

/-- ASCII whitespace stripped by Python `int(str)`. -/
def isPySpace (c : Char) : Bool :=
  c = ' ' || c = '\t' || c = '\n' || c = '\x0d' || c = '\x0b' || c = '\x0c'

/-- Digit run with single underscores between digits, as accepted by the
Python integer literal grammar (`digit (["_"] digit)*`). -/
def parseDigitsUAux (acc : Nat) : PyStr → Option Nat
  | [] => some acc
  | c :: rest =>
    if c = '_' then
      match rest with
      | [] => none
      | c2 :: rest2 =>
        if c2.isDigit then parseDigitsUAux (10 * acc + (c2.toNat - '0'.toNat)) rest2
        else none
    else if c.isDigit then parseDigitsUAux (10 * acc + (c.toNat - '0'.toNat)) rest
    else none

/-- Parse a non-empty underscore-grouped digit run. -/
def parseDigitsU : PyStr → Option Nat
  | [] => none
  | c :: rest =>
    if c.isDigit then parseDigitsUAux (c.toNat - '0'.toNat) rest else none

/-- Python `int(str)` on the ASCII fragment: strip whitespace, optional
sign, underscore-grouped decimal digits; `none` models `ValueError`. -/
def pyInt (s : PyStr) : Option Int :=
  let t := ((s.dropWhile isPySpace).reverse.dropWhile isPySpace).reverse
  if t.headD ' ' = '+' then (parseDigitsU t.tail).map Int.ofNat
  else if t.headD ' ' = '-' then (parseDigitsU t.tail).map (fun n => -(n : Int))
  else (parseDigitsU t).map Int.ofNat

/-! ### Error model

One `ErrMsg` constructor per `raise` site of the modelled code, carrying the
interpolated arguments of the corresponding f-string; `ErrMsg.render`
produces the exact message text of the source. -/

/-- Messages of the modelled `raise` sites. -/
inductive ErrMsg where
  | schemeEmpty
  | hostsEmpty
  | invalidHosts (uri : PyStr)
  | invalidOptions (uri : PyStr)
  | emptyHost
  | unclosedBracket
  | expectedColon
  | expectedInt
  | incompatibleNfs
  | incompatibleCephfs
  | missingUser
  | missingName
  | missingFsid
  | missingAuth
  | authKindSplit
  | badQueryField (field : PyStr)
  | invalidAuthKind (kind : PyStr)
  | unsupportedFs (scheme : PyStr)
  | invalidIpv6Url
deriving DecidableEq, Repr

/-- The exact message string of each `raise` site (the `missingUser` and
`missingAuth` texts reproduce the source's own typos verbatim). -/
def ErrMsg.render : ErrMsg → String
  | .schemeEmpty => "scheme cannot be empty"
  | .hostsEmpty => "list of hosts cannot be empty"
  | .invalidHosts uri => "invalid list of hosts for endpoint `" ++ String.mk uri ++ "`"
  | .invalidOptions uri => "invalid options for endpoint `" ++ String.mk uri ++ "`"
  | .emptyHost => "invalid empty host"
  | .unclosedBracket => "unclosed bracket for host"
  | .expectedColon => "expected `:` after IPv6 address"
  | .expectedInt => "expected int after `:` in host"
  | .incompatibleNfs => "could not parse uri with incompatible scheme into `NfsInfo`"
  | .incompatibleCephfs => "could not parse uri with incompatible scheme into `CephfsInfo`"
  | .missingUser => "missing user in uri for `CephfsInfo"
  | .missingName => "missing name in uri for `CephfsInfo`"
  | .missingFsid => "missing fsid in uri for `CephfsInfo`"
  | .missingAuth => "missing auth info in uri for `CephsInfo`"
  | .authKindSplit => "could not get the kind of auth info"
  | .badQueryField f => "bad query field: " ++ String.mk f
  | .invalidAuthKind kind => "invalid kind `" ++ String.mk kind ++ "` for auth info"
  | .unsupportedFs scheme => "unsupported filesystem type `" ++ String.mk scheme ++ "`"
  | .invalidIpv6Url => "Invalid IPv6 URL"

/-- The exceptions the modelled code can raise: `FilesystemInfoError`,
its subclass `ParseUriError`, the `ValueError` of `urllib`'s `urlsplit`
(which `_UriData.from_uri` does not catch), and `ops.SecretNotFoundError`
from the secret store. -/
inductive FsError where
  | filesystemInfoError (m : ErrMsg)
  | parseUriError (m : ErrMsg)
  | valueError (m : ErrMsg)
  | secretNotFound
deriving DecidableEq, Repr

/-! ### The modelled fragment of `urllib.parse` (CPython 3.11) -/

/-- `urllib.parse.scheme_chars`. -/
def schemeChars (c : Char) : Bool :=
  c.isAlpha || c.isDigit || c = '+' || c = '-' || c = '.'

/-- `urlsplit`'s removal of `_UNSAFE_URL_BYTES_TO_REMOVE` (tab, CR, LF). -/
def removeUnsafe (s : PyStr) : PyStr :=
  s.filter (fun c => ¬(c = '\t' ∨ c = '\x0d' ∨ c = '\n'))

/-- `min` step of `_splitnetloc`'s delimiter search. -/
def minOpt (m : Nat) : Option Nat → Nat
  | some i => min m i
  | none => m

/-- `urllib.parse._splitnetloc` (with the start offset already dropped by
the caller): cut at the earliest of `/`, `?`, `#`. -/
def splitnetloc (s : PyStr) : PyStr × PyStr :=
  let d1 := minOpt s.length (pyFind '/' s)
  let d2 := minOpt d1 (pyFind '?' s)
  let d3 := minOpt d2 (pyFind '#' s)
  (s.take d3, s.drop d3)

/-- Result of the modelled `urlsplit`/`urlparse` (with
`allow_fragments=False`, so no fragment field; `urlparse`'s `params` field
is dropped after being split off the path). -/
structure PySplitResult where
  scheme : PyStr
  netloc : PyStr
  path : PyStr
  query : PyStr
deriving DecidableEq, Repr

/-- `urllib.parse.urlsplit(url, allow_fragments=False)` on the ASCII
fragment.  `_checknetloc` is a no-op on ASCII netlocs and its NFKC check
for non-ASCII netlocs is not modelled.  The `ValueError` for mismatched
square brackets in the netloc is the `.error` case. -/
def pyUrlsplit (url0 : PyStr) : Except ErrMsg PySplitResult :=
  let url1 := removeUnsafe url0
  let (scheme, url2) :=
    match pyFind ':' url1 with
    | some i =>
      if 0 < i ∧ (url1.headD ' ').isAlpha ∧ (url1.take i).all schemeChars then
        (pyLower (url1.take i), url1.drop (i + 1))
      else ([], url1)
    | none => ([], url1)
  if url2.take 2 = ['/', '/'] then
    let (netloc, url3) := splitnetloc (url2.drop 2)
    if ('[' ∈ netloc ∧ ']' ∉ netloc) ∨ (']' ∈ netloc ∧ '[' ∉ netloc) then
      .error .invalidIpv6Url
    else
      match splitOnceSub ['?'] url3 with
      | some (p, q) => .ok ⟨scheme, netloc, p, q⟩
      | none => .ok ⟨scheme, netloc, url3, []⟩
  else
    match splitOnceSub ['?'] url2 with
    | some (p, q) => .ok ⟨scheme, [], p, q⟩
    | none => .ok ⟨scheme, [], url2, []⟩

/-- Schemes of `urllib.parse.uses_params`. -/
def usesParams : List PyStr :=
  [[], "ftp".toList, "hdl".toList, "prospero".toList, "http".toList,
   "imap".toList, "https".toList, "shttp".toList, "rtsp".toList,
   "rtsps".toList, "rtspu".toList, "sip".toList, "sips".toList,
   "mms".toList, "sftp".toList, "tel".toList]

/-- Python `s.rfind(c)` for a single character. -/
def pyRFind (c : Char) (s : PyStr) : Option Nat :=
  (pyFind c s.reverse).map (fun i => s.length - 1 - i)

/-- Python `s.find(c, start)` (absolute index). -/
def pyFindFrom (c : Char) (s : PyStr) (start : Nat) : Option Nat :=
  (pyFind c (s.drop start)).map (· + start)

/-- `urllib.parse._splitparams`. -/
def splitparams (url : PyStr) : PyStr × PyStr :=
  let i :=
    if '/' ∈ url then
      pyFindFrom ';' url ((pyRFind '/' url).getD 0)
    else pyFind ';' url
  match i with
  | none => (url, [])
  | some i => (url.take i, url.drop (i + 1))

/-- `urllib.parse.urlparse(url, allow_fragments=False)`: `urlsplit`, then
split `;params` off the path for schemes in `uses_params`; the result keeps
only the fields `_UriData.from_uri` reads (params dropped). -/
def pyUrlparse (url : PyStr) : Except ErrMsg PySplitResult := do
  let r ← pyUrlsplit url
  if r.scheme ∈ usesParams ∧ ';' ∈ r.path then
    let (p, _) := splitparams r.path
    .ok ⟨r.scheme, r.netloc, p, r.query⟩
  else
    .ok r

/-- The `username` property of a parse result (`_userinfo[0]`): the part of
the netloc before the last `@`, truncated at its first `:`; `none` when the
netloc has no `@`. -/
def pyUsername (netloc : PyStr) : Option PyStr :=
  let (userinfo, haveInfo, _) := pyRPartition '@' netloc
  if haveInfo then some (pyPartition ':' userinfo).1 else none

/-- The `hostname` property of a parse result (`_hostinfo[0]` plus the
scoped-IPv6 lowercasing rule): take the netloc after the last `@`; if it
contains `[`, the part between `[` and the following `]`, otherwise the
part before the first `:`; then lowercase only the part before the first
`%`.  `none` when the result is empty. -/
def pyHostname (netloc : PyStr) : Option PyStr :=
  let hostinfo := (pyRPartition '@' netloc).2.2
  let hp :=
    match splitOnceSub ['['] hostinfo with
    | some (_, bracketed) => (pyPartition ']' bracketed).1
    | none => (pyPartition ':' hostinfo).1
  if hp = [] then none
  else
    match splitOnceSub ['%'] hp with
    | some (before, after) => some (pyLower before ++ '%' :: after)
    | none => some (pyLower hp)

/-- One `name_value` step of `parse_qsl(qs, strict_parsing=True)` (with
`keep_blank_values=False`): a part without `=` is a `ValueError`; parts
with an empty value are dropped; names and values are
`unquote_plus`-decoded. -/
def qslStep (acc : List (PyStr × PyStr)) (nv : PyStr) :
    Except ErrMsg (List (PyStr × PyStr)) :=
  match splitOnceSub ['='] nv with
  | none => .error (.badQueryField nv)
  | some (n, v) =>
    if v.length ≠ 0 then .ok (acc ++ [(pyUnquotePlus n, pyUnquotePlus v)])
    else .ok acc

/-- `urllib.parse.parse_qsl(qs, strict_parsing=True)`: split on `&` and
fold `qslStep` over the parts (an empty query yields no parts). -/
def parseQsl (qs : PyStr) : Except ErrMsg (List (PyStr × PyStr)) :=
  if qs = [] then .ok []
  else (pySplitChar '&' qs).foldlM qslStep []

/-- The dict-of-lists accumulation of `urllib.parse.parse_qs`: append to an
existing key's list, else insert the key at the end. -/
def dictAppend (d : List (PyStr × List PyStr)) (k : PyStr) (v : PyStr) :
    List (PyStr × List PyStr) :=
  match d with
  | [] => [(k, [v])]
  | (k', vs) :: rest =>
    if k' = k then (k', vs ++ [v]) :: rest else (k', vs) :: dictAppend rest k v

/-- `urllib.parse.parse_qs(qs, strict_parsing=True)`: `parse_qsl` grouped
into an insertion-ordered dict of lists. -/
def parseQs (qs : PyStr) : Except ErrMsg (List (PyStr × List PyStr)) := do
  let l ← parseQsl qs
  .ok (l.foldl (fun d p => dictAppend d p.1 p.2) [])

/-- `urllib.parse.urlencode(query)` with the default `quote_via=quote_plus`
and `safe=''`. -/
def pyUrlencode (query : List (PyStr × PyStr)) : PyStr :=
  List.intercalate ['&']
    (query.map (fun p => pyQuotePlus [] p.1 ++ '=' :: pyQuotePlus [] p.2))

/-- Schemes of `urllib.parse.uses_netloc` (the subset is irrelevant here:
`_UriData.__str__` always passes a non-empty netloc). -/
def usesNetloc : List PyStr :=
  [[], "ftp".toList, "http".toList, "gopher".toList, "nntp".toList,
   "telnet".toList, "imap".toList, "wais".toList, "file".toList,
   "mms".toList, "https".toList, "shttp".toList, "snews".toList,
   "prospero".toList, "rtsp".toList, "rtsps".toList, "rtspu".toList,
   "rsync".toList, "svn".toList, "svn+ssh".toList, "sftp".toList,
   "nfs".toList, "git".toList, "git+ssh".toList, "ws".toList,
   "wss".toList]

/-- `urllib.parse.urlunsplit((scheme, netloc, url, query, None))`. -/
def pyUrlunsplit (scheme netloc url query : PyStr) : PyStr :=
  let url :=
    if netloc ≠ [] ∨ (scheme ≠ [] ∧ scheme ∈ usesNetloc ∧ url.take 2 ≠ ['/', '/']) then
      '/' :: '/' :: netloc ++ (if url ≠ [] ∧ url.headD ' ' ≠ '/' then '/' :: url else url)
    else url
  let url := if scheme ≠ [] then scheme ++ ':' :: url else url
  if query ≠ [] then url ++ '?' :: query else url

/-! ### The repository's codec (`filesystem_info.py`) -/

/-- `_UriData`: raw data from the endpoint URI of a relation.  `options`
models the Python `dict[str, str]` as an insertion-ordered association
list, matching how `from_uri` builds it from `parse_qs`. -/
structure UriData where
  scheme : PyStr
  hosts : List PyStr
  user : PyStr
  path : PyStr
  options : List (PyStr × PyStr)
deriving DecidableEq, Repr

/-- `_UriData.__init__`: empty scheme or empty host list raise
`FilesystemInfoError`; an empty path defaults to `"/"`. -/
def UriData.mk? (scheme : PyStr) (hosts : List PyStr) (user : PyStr)
    (path : PyStr) (options : List (PyStr × PyStr)) : Except ErrMsg UriData :=
  if scheme = [] then .error .schemeEmpty
  else if hosts = [] then .error .hostsEmpty
  else .ok ⟨scheme, hosts, user, if path = [] then ['/'] else path, options⟩

/-- `",".join(values)` of a dict-of-lists entry. -/
def joinComma (vs : List PyStr) : PyStr := List.intercalate [','] vs

/-- Propagation of the `ValueError` that `urlparse` can raise (it is not a
`FilesystemInfoError`, and `_UriData.from_uri` does not catch it). -/
def liftValueError : Except ErrMsg α → Except FsError α
  | .error e => .error (.valueError e)
  | .ok a => .ok a

/-- `_UriData.from_uri`: parse with `urlparse(uri, allow_fragments=False)`,
unquote user/hostname/path, check the literal parentheses around the host
list, split it on `,`, parse the options strictly, and run the validating
constructor (whose `FilesystemInfoError` is re-raised as `ParseUriError`). -/
def UriData.from_uri (uri : PyStr) : Except FsError UriData := do
  let result ← liftValueError (pyUrlparse uri)
  let scheme := result.scheme
  let user := pyUnquote ((pyUsername result.netloc).getD [])
  let hostname := pyUnquote ((pyHostname result.netloc).getD [])
  if hostname = [] ∨ hostname.headD ' ' ≠ '(' ∨ hostname.getLastD ' ' ≠ ')' then
    .error (.parseUriError (.invalidHosts uri))
  else
    let hosts := pySplitChar ',' (hostname.drop 1).dropLast
    let path := pyUnquote result.path
    match (if result.query ≠ [] then parseQs result.query else .ok []) with
    | .error _ => .error (.parseUriError (.invalidOptions uri))
    | .ok qs =>
      let options := qs.map (fun p => (p.1, joinComma p.2))
      match UriData.mk? scheme hosts user path options with
      | .ok d => .ok d
      | .error m => .error (.parseUriError m)

/-- `_UriData.__str__`: quote the parts, wrap the comma-joined host list in
parentheses, prefix `user@` when the (quoted) user is non-empty, and
reassemble with `urlunsplit` and `urlencode`. -/
def UriData.toStr (d : UriData) : PyStr :=
  let user := pyQuote ['/'] d.user
  let hostname := pyQuote ['/'] (List.intercalate [','] d.hosts)
  let path := pyQuote ['/'] d.path
  let netloc :=
    if user ≠ [] then user ++ '@' :: '(' :: hostname ++ [')']
    else '(' :: hostname ++ [')']
  let query := pyUrlencode d.options
  pyUrlunsplit d.scheme netloc path query

/-- `_hostinfo`: parse a single host token into hostname and optional
port.  The port is read with Python `int()` (modelled by `pyInt`). -/
def hostinfo (host : PyStr) : Except FsError (PyStr × Option Int) := do
  if host.length = 0 then .error (.parseUriError .emptyHost)
  else
    let (hostname, pos) ←
      (if host.headD ' ' = '[' then
        match pyFind ']' host with
        | none => .error (.parseUriError .unclosedBracket)
        | some pos => .ok ((host.take pos).drop 1, pos + 1)
      else
        let pos := (pyFind ':' host).getD host.length
        .ok (host.take pos, pos) : Except FsError (PyStr × Nat))
    if pos = host.length then .ok (hostname, none)
    else if host.getD pos ' ' ≠ ':' then .error (.parseUriError .expectedColon)
    else
      match pyInt (host.drop (pos + 1)) with
      | some port => .ok (hostname, some port)
      | none => .error (.parseUriError .expectedInt)

/-- `NfsInfo`: information required to mount an NFS share. -/
structure NfsInfo where
  hostname : PyStr
  port : Option Int
  path : PyStr
deriving DecidableEq, Repr

/-- `NfsInfo.filesystem_type()`. -/
def NfsInfo.filesystem_type : PyStr := "nfs".toList

/-- `NfsInfo.from_uri`: parse the generic `_UriData`, require the `nfs`
scheme, and build the descriptor from the first host token (extra hosts,
user info and options are logged and discarded). -/
def NfsInfo.from_uri (uri : PyStr) : Except FsError NfsInfo := do
  let info ← UriData.from_uri uri
  if info.scheme ≠ NfsInfo.filesystem_type then
    .error (.parseUriError .incompatibleNfs)
  else
    -- `info.hosts[0]`; `hosts` is non-empty by the `_UriData` invariant
    let (hostname, port) ← hostinfo (info.hosts.headD [])
    .ok ⟨hostname, port, info.path⟩

/-- `CephfsInfo`: information required to mount a CephFS share. -/
structure CephfsInfo where
  fsid : PyStr
  name : PyStr
  path : PyStr
  monitor_hosts : List PyStr
  user : PyStr
  key : PyStr
deriving DecidableEq, Repr

/-- `CephfsInfo.filesystem_type()`. -/
def CephfsInfo.filesystem_type : PyStr := "cephfs".toList

/-- `dict.get` on the options dict. -/
def optGet (opts : List (PyStr × PyStr)) (k : PyStr) : Option PyStr :=
  (opts.find? (fun p => p.1 = k)).map Prod.snd

/-- The walrus-with-truthiness pattern `if not (x := options.get(k))`:
a missing key and an empty value are both "absent". -/
def truthyGet (opts : List (PyStr × PyStr)) (k : PyStr) : Option PyStr :=
  match optGet opts k with
  | some v => if v = [] then none else some v
  | none => none

/-- The external secret store, standing for
`model.get_secret(id=...).get_content(refresh=True)["key"]`; `none` models
`ops.SecretNotFoundError`. -/
abbrev SecretStore := PyStr → Option PyStr

/-- `CephfsInfo.from_uri`: parse the generic `_UriData`, require the
`cephfs` scheme, then the `user`, `name`, `fsid` and `auth` fields; `auth`
is `kind:data` with `kind` either `secret` (resolved through the store by
the whole `auth` string) or `plain` (the data is the key verbatim). -/
def CephfsInfo.from_uri (store : SecretStore) (uri : PyStr) :
    Except FsError CephfsInfo := do
  let info ← UriData.from_uri uri
  if info.scheme ≠ CephfsInfo.filesystem_type then
    .error (.parseUriError .incompatibleCephfs)
  else
    let path := info.path
    if info.user = [] then .error (.parseUriError .missingUser)
    else
        match truthyGet info.options "name".toList with
        | none => .error (.parseUriError .missingName)
        | some name =>
          match truthyGet info.options "fsid".toList with
          | none => .error (.parseUriError .missingFsid)
          | some fsid =>
            let monitor_hosts := info.hosts
            match truthyGet info.options "auth".toList with
            | none => .error (.parseUriError .missingAuth)
            | some auth =>
              match splitOnceSub [':'] auth with
              | none => .error (.parseUriError .authKindSplit)
              | some (kind, data) =>
                if kind = "secret".toList then
                  match store auth with
                  | some key =>
                    .ok ⟨fsid, name, path, monitor_hosts, info.user, key⟩
                  | none => .error .secretNotFound
                else if kind = "plain".toList then
                  .ok ⟨fsid, name, path, monitor_hosts, info.user, data⟩
                else .error (.parseUriError (.invalidAuthKind kind))

/-- The decoded result of the registry: one constructor per descriptor
variant. -/
inductive FilesystemInfo where
  | nfs (i : NfsInfo)
  | cephfs (i : CephfsInfo)
deriving DecidableEq, Repr

/-- `uri.split("://", maxsplit=1)[0]`, the registry's cheap scheme
extraction. -/
def schemeOf (uri : PyStr) : PyStr :=
  match splitOnceSub "://".toList uri with
  | some (s, _) => s
  | none => uri

/-- `_uri_to_fs_info`: dispatch on the scheme before `"://"`. -/
def uri_to_fs_info (store : SecretStore) (uri : PyStr) :
    Except FsError FilesystemInfo :=
  let scheme := schemeOf uri
  if scheme = NfsInfo.filesystem_type then
    (NfsInfo.from_uri uri).map .nfs
  else if scheme = CephfsInfo.filesystem_type then
    (CephfsInfo.from_uri store uri).map .cephfs
  else .error (.filesystemInfoError (.unsupportedFs scheme))

/-! ### Character classes and validity predicates used by the theorems -/

/-- Decimal value of a digit string. -/
def decValue (s : PyStr) : Nat :=
  s.foldl (fun a c => 10 * a + (c.toNat - '0'.toNat)) 0

/-- Host characters for which decoding is the identity modulo nothing at
all: lowercase ASCII letters, digits, and the unreserved marks `._-~`. -/
def lowerHostChar (c : Char) : Bool :=
  c.isLower || c.isDigit || c = '_' || c = '.' || c = '-' || c = '~'

/-- Scheme characters that `urlsplit` keeps unchanged: lowercase ASCII
letters and digits. -/
def schemeLowerChar (c : Char) : Bool :=
  c.isLower || c.isDigit

/-- The serialization-safe `_UriData` values for which the round-trip
`from_uri (toStr d) = d` is provable: non-empty lowercase alphanumeric
scheme, hosts over `lowerHostChar`, user and option keys/values over the
unreserved alphabet, an absolute path over unreserved-or-`/`, non-empty
option keys and values with no duplicate keys. -/
structure WireSafe (d : UriData) : Prop where
  scheme_ne : d.scheme ≠ []
  scheme_head : (d.scheme.headD ' ').isLower
  scheme_chars : ∀ c ∈ d.scheme, schemeLowerChar c
  hosts_ne : d.hosts ≠ []
  hosts_chars : ∀ h ∈ d.hosts, ∀ c ∈ h, lowerHostChar c
  user_chars : ∀ c ∈ d.user, alwaysSafe c
  path_head : d.path.headD ' ' = '/'
  path_chars : ∀ c ∈ d.path, alwaysSafe c ∨ c = '/'
  opt_keys_ne : ∀ p ∈ d.options, p.1 ≠ []
  opt_vals_ne : ∀ p ∈ d.options, p.2 ≠ []
  opt_chars : ∀ p ∈ d.options, (∀ c ∈ p.1, alwaysSafe c) ∧ ∀ c ∈ p.2, alwaysSafe c
  opt_keys_nodup : (d.options.map Prod.fst).Nodup

/-! ## Helper lemmas: characters -/

/-- Two characters with different code points differ. -/
theorem char_ne_of_toNat {c d : Char} (h : c.toNat ≠ d.toNat) : c ≠ d :=
  fun he => h (he ▸ rfl)

/-- A character in a charset differs from any character outside it. -/
theorem charset_ne {P : Char → Bool} {c : Char} (h : P c = true) {d : Char}
    (hd : P d = false) : c ≠ d := by
  intro he
  subst he
  rw [h] at hd
  cases hd

/-- A character outside a charset is not a member of a string over it. -/
theorem charset_not_mem {P : Char → Bool} {s : PyStr}
    (h : ∀ c ∈ s, P c = true) {d : Char} (hd : P d = false) : d ∉ s :=
  fun hm => by rw [h d hm] at hd; cases hd

/-- Code-point characterization of `_ALWAYS_SAFE` membership. -/
theorem alwaysSafe_toNat {c : Char} (h : alwaysSafe c = true) :
    (65 ≤ c.toNat ∧ c.toNat ≤ 90) ∨ (97 ≤ c.toNat ∧ c.toNat ≤ 122) ∨
    (48 ≤ c.toNat ∧ c.toNat ≤ 57) ∨ c.toNat = 95 ∨ c.toNat = 46 ∨
    c.toNat = 45 ∨ c.toNat = 126 := by
  simp only [alwaysSafe, Char.isAlpha, Char.isUpper, Char.isLower,
    Char.isDigit, Bool.or_eq_true, Bool.and_eq_true, decide_eq_true_eq] at h
  rcases h with (((((⟨h1, h2⟩ | ⟨h1, h2⟩) | ⟨h1, h2⟩) | rfl) | rfl) | rfl) | rfl
  · exact Or.inl ⟨by exact_mod_cast h1, by exact_mod_cast h2⟩
  · exact Or.inr (Or.inl ⟨by exact_mod_cast h1, by exact_mod_cast h2⟩)
  · exact Or.inr (Or.inr (Or.inl ⟨by exact_mod_cast h1, by exact_mod_cast h2⟩))
  · exact Or.inr (Or.inr (Or.inr (Or.inl (by decide))))
  · exact Or.inr (Or.inr (Or.inr (Or.inr (Or.inl (by decide)))))
  · exact Or.inr (Or.inr (Or.inr (Or.inr (Or.inr (Or.inl (by decide))))))
  · exact Or.inr (Or.inr (Or.inr (Or.inr (Or.inr (Or.inr (by decide))))))

/-- Code-point characterization of `lowerHostChar`. -/
theorem lowerHostChar_toNat {c : Char} (h : lowerHostChar c = true) :
    (97 ≤ c.toNat ∧ c.toNat ≤ 122) ∨ (48 ≤ c.toNat ∧ c.toNat ≤ 57) ∨
    c.toNat = 95 ∨ c.toNat = 46 ∨ c.toNat = 45 ∨ c.toNat = 126 := by
  simp only [lowerHostChar, Char.isLower, Char.isDigit, Bool.or_eq_true,
    Bool.and_eq_true, decide_eq_true_eq] at h
  rcases h with ((((⟨h1, h2⟩ | ⟨h1, h2⟩) | rfl) | rfl) | rfl) | rfl
  · exact Or.inl ⟨by exact_mod_cast h1, by exact_mod_cast h2⟩
  · exact Or.inr (Or.inl ⟨by exact_mod_cast h1, by exact_mod_cast h2⟩)
  · exact Or.inr (Or.inr (Or.inl (by decide)))
  · exact Or.inr (Or.inr (Or.inr (Or.inl (by decide))))
  · exact Or.inr (Or.inr (Or.inr (Or.inr (Or.inl (by decide)))))
  · exact Or.inr (Or.inr (Or.inr (Or.inr (Or.inr (by decide)))))

/-- Code-point characterization of `schemeLowerChar`. -/
theorem schemeLowerChar_toNat {c : Char} (h : schemeLowerChar c = true) :
    (97 ≤ c.toNat ∧ c.toNat ≤ 122) ∨ (48 ≤ c.toNat ∧ c.toNat ≤ 57) := by
  simp only [schemeLowerChar, Char.isLower, Char.isDigit, Bool.or_eq_true,
    Bool.and_eq_true, decide_eq_true_eq] at h
  rcases h with ⟨h1, h2⟩ | ⟨h1, h2⟩
  · exact Or.inl ⟨by exact_mod_cast h1, by exact_mod_cast h2⟩
  · exact Or.inr ⟨by exact_mod_cast h1, by exact_mod_cast h2⟩

/-- `Char.toLower` fixes characters outside the uppercase ASCII range. -/
theorem toLower_eq_self {c : Char} (h : c.toNat < 65 ∨ 90 < c.toNat) :
    c.toLower = c := by
  unfold Char.toLower
  have hh : ¬(c.toNat ≥ 65 ∧ c.toNat ≤ 90) := by omega
  simp [Char.toNat] at hh ⊢
  omega

/-- Characters of `lowerHostChar` are fixed by lowercasing. -/
theorem lowerHostChar_toLower {c : Char} (h : lowerHostChar c = true) :
    c.toLower = c := by
  rcases lowerHostChar_toNat h with h | h | h | h | h | h <;>
    exact toLower_eq_self (by omega)

/-- Characters of `schemeLowerChar` are fixed by lowercasing. -/
theorem schemeLowerChar_toLower {c : Char} (h : schemeLowerChar c = true) :
    c.toLower = c := by
  rcases schemeLowerChar_toNat h with h | h <;> exact toLower_eq_self (by omega)

/-- `_ALWAYS_SAFE` characters are ASCII. -/
theorem alwaysSafe_lt128 {c : Char} (h : alwaysSafe c = true) : c.toNat < 128 := by
  rcases alwaysSafe_toNat h with h | h | h | h | h | h | h <;> omega

/-- `lowerHostChar` is contained in `_ALWAYS_SAFE`. -/
theorem lowerHostChar_alwaysSafe {c : Char} (h : lowerHostChar c = true) :
    alwaysSafe c = true := by
  simp only [lowerHostChar, Bool.or_eq_true] at h
  simp only [alwaysSafe, Char.isAlpha, Bool.or_eq_true]
  rcases h with ((((h | h) | h) | h) | h) | h <;> simp [h]

/-- `schemeLowerChar` is contained in `_ALWAYS_SAFE`. -/
theorem schemeLowerChar_alwaysSafe {c : Char} (h : schemeLowerChar c = true) :
    alwaysSafe c = true := by
  simp only [schemeLowerChar, Bool.or_eq_true] at h
  simp only [alwaysSafe, Char.isAlpha, Bool.or_eq_true]
  rcases h with h | h <;> simp [h]

/-- `schemeLowerChar` is contained in `urlsplit`'s `scheme_chars`. -/
theorem schemeLowerChar_schemeChars {c : Char} (h : schemeLowerChar c = true) :
    schemeChars c = true := by
  simp only [schemeLowerChar, Char.isAlpha, Bool.or_eq_true] at h
  simp only [schemeChars, Char.isAlpha, Bool.or_eq_true]
  rcases h with h | h <;> simp [h]

/-! ## Helper lemmas: the Python string primitives -/

theorem pyFind_not_mem {c : Char} {s : PyStr} (h : c ∉ s) : pyFind c s = none := by
  induction s with
  | nil => rfl
  | cons a l ih =>
    rw [List.mem_cons, not_or] at h
    simp [pyFind, Ne.symm h.1, ih h.2]

theorem pyFind_append_cons {c : Char} (a b : PyStr) (h : c ∉ a) :
    pyFind c (a ++ c :: b) = some a.length := by
  induction a with
  | nil => simp [pyFind]
  | cons x l ih =>
    rw [List.mem_cons, not_or] at h
    simp [pyFind, Ne.symm h.1, ih h.2]

theorem pyFind_append_not_mem {c : Char} (a b : PyStr) (h : c ∉ a) :
    pyFind c (a ++ b) = (pyFind c b).map (· + a.length) := by
  induction a with
  | nil => simp
  | cons x l ih =>
    rw [List.mem_cons, not_or] at h
    rw [List.cons_append]
    show (if x = c then some 0 else (pyFind c (l ++ b)).map (· + 1)) = _
    rw [if_neg (Ne.symm h.1), ih h.2]
    cases pyFind c b with
    | none => rfl
    | some i =>
      show some (i + l.length + 1) = some (i + (l.length + 1))
      rw [Nat.add_assoc]

theorem splitOnceSub_not_mem {c : Char} {s : PyStr} (h : c ∉ s) :
    splitOnceSub [c] s = none := by
  induction s with
  | nil => rfl
  | cons a l ih =>
    rw [List.mem_cons, not_or] at h
    have hpre : List.isPrefixOf [c] (a :: l) = false := by
      simp only [List.isPrefixOf, Bool.and_eq_false_iff]
      exact Or.inl (by simpa using h.1)
    simp [splitOnceSub, hpre, ih h.2]

theorem splitOnceSub_cons_self {c : Char} (a b : PyStr) (h : c ∉ a) :
    splitOnceSub [c] (a ++ c :: b) = some (a, b) := by
  induction a with
  | nil => simp [splitOnceSub, List.isPrefixOf]
  | cons x l ih =>
    rw [List.mem_cons, not_or] at h
    have hpre : List.isPrefixOf [c] (x :: (l ++ c :: b)) = false := by
      simp only [List.isPrefixOf, Bool.and_eq_false_iff]
      exact Or.inl (by simpa using h.1)
    simp [splitOnceSub, hpre, ih h.2]

theorem pyPartition_not_mem {c : Char} {s : PyStr} (h : c ∉ s) :
    pyPartition c s = (s, false, []) := by
  simp [pyPartition, splitOnceSub_not_mem h]

theorem pyPartition_cons_self {c : Char} (a b : PyStr) (h : c ∉ a) :
    pyPartition c (a ++ c :: b) = (a, true, b) := by
  simp [pyPartition, splitOnceSub_cons_self a b h]

theorem pyRPartition_not_mem {c : Char} {s : PyStr} (h : c ∉ s) :
    pyRPartition c s = ([], false, s) := by
  have : c ∉ s.reverse := by simpa using h
  simp [pyRPartition, splitOnceSub_not_mem this]

theorem pyRPartition_last {c : Char} (a b : PyStr) (h : c ∉ b) :
    pyRPartition c (a ++ c :: b) = (a, true, b) := by
  have hmem : c ∉ b.reverse := by simpa using h
  have : (a ++ c :: b).reverse = b.reverse ++ c :: a.reverse := by
    simp
  simp [pyRPartition, this, splitOnceSub_cons_self _ _ hmem]

theorem intercalate_nil (sep : PyStr) : List.intercalate sep ([] : List PyStr) = [] := rfl

theorem intercalate_single (sep : PyStr) (a : PyStr) :
    List.intercalate sep [a] = a := by
  simp [List.intercalate]

theorem intercalate_cons_cons (sep : PyStr) (a b : PyStr) (r : List PyStr) :
    List.intercalate sep (a :: b :: r) = a ++ sep ++ List.intercalate sep (b :: r) := by
  simp [List.intercalate, List.intersperse]

theorem mem_intercalate {sep : PyStr} {l : List PyStr} {c : Char}
    (h : c ∈ List.intercalate sep l) : c ∈ sep ∨ ∃ x ∈ l, c ∈ x := by
  induction l with
  | nil => simp [intercalate_nil] at h
  | cons a r ih =>
    cases r with
    | nil =>
      rw [intercalate_single] at h
      exact Or.inr ⟨a, by simp, h⟩
    | cons b r2 =>
      rw [intercalate_cons_cons, List.append_assoc, List.mem_append] at h
      rcases h with h | h
      · exact Or.inr ⟨a, by simp, h⟩
      · rw [List.mem_append] at h
        rcases h with h | h
        · exact Or.inl h
        · rcases ih h with h | ⟨x, hx, hc⟩
          · exact Or.inl h
          · exact Or.inr ⟨x, by simp [hx], hc⟩

theorem pySplitChar_intercalate {c : Char} {hs : List PyStr} (hne : hs ≠ [])
    (h : ∀ x ∈ hs, c ∉ x) :
    pySplitChar c (List.intercalate [c] hs) = hs := by
  simpa [pySplitChar] using List.splitOn_intercalate hs c h hne

theorem pySplitChar_not_mem {c : Char} {s : PyStr} (h : c ∉ s) :
    pySplitChar c s = [s] := by
  have h2 := @pySplitChar_intercalate c [s] (by simp) (by simpa using h)
  rw [intercalate_single] at h2
  exact h2

/-! ## Helper lemmas: quote and unquote -/

theorem pyUnquote_cons_ne {a : Char} (l : PyStr) (h : a ≠ '%') :
    pyUnquote (a :: l) = a :: pyUnquote l := by
  cases l with
  | nil => simp [pyUnquote, h]
  | cons b m =>
    cases m with
    | nil => simp [pyUnquote, h]
    | cons d n => simp [pyUnquote, h]

theorem pyUnquote_append {a : PyStr} (b : PyStr) (h : '%' ∉ a) :
    pyUnquote (a ++ b) = a ++ pyUnquote b := by
  induction a with
  | nil => rfl
  | cons x l ih =>
    rw [List.mem_cons, not_or] at h
    rw [List.cons_append, pyUnquote_cons_ne _ (Ne.symm h.1), ih h.2,
      List.cons_append]

theorem pyUnquote_not_mem {s : PyStr} (h : '%' ∉ s) : pyUnquote s = s := by
  have h2 := pyUnquote_append [] h
  simp only [List.append_nil, show pyUnquote [] = [] from rfl] at h2
  exact h2

theorem pyUnquote_pct {h1 h2 : Char} (r : PyStr) {v1 v2 : Nat}
    (e1 : hexVal h1 = some v1) (e2 : hexVal h2 = some v2) :
    pyUnquote ('%' :: h1 :: h2 :: r) = Char.ofNat (16 * v1 + v2) :: pyUnquote r := by
  simp [pyUnquote, e1, e2]

theorem hexVal_hexDigitUpper {n : Nat} (h : n < 16) :
    hexVal (hexDigitUpper n) = some n := by
  interval_cases n <;> decide

theorem pyUnquote_pctEncode {n : Nat} (hn : n < 256) (r : PyStr) :
    pyUnquote (pctEncodeByte n ++ r) = Char.ofNat n :: pyUnquote r := by
  have h1 : n / 16 < 16 := by omega
  have h2 : n % 16 < 16 := Nat.mod_lt _ (by norm_num)
  show pyUnquote ('%' :: hexDigitUpper (n / 16) :: hexDigitUpper (n % 16) :: r) = _
  rw [pyUnquote_pct r (hexVal_hexDigitUpper h1) (hexVal_hexDigitUpper h2)]
  congr 2
  omega

theorem quoteChar_safe {safe : List Char} {c : Char}
    (h : alwaysSafe c = true ∨ c ∈ safe) : quoteChar safe c = [c] := by
  rcases h with h | h <;> simp [quoteChar, h]

theorem pyQuote_append (safe : List Char) (a b : PyStr) :
    pyQuote safe (a ++ b) = pyQuote safe a ++ pyQuote safe b := by
  simp [pyQuote]

theorem pyQuote_id {safe : List Char} {s : PyStr}
    (h : ∀ c ∈ s, alwaysSafe c = true ∨ c ∈ safe) : pyQuote safe s = s := by
  induction s with
  | nil => rfl
  | cons x l ih =>
    show quoteChar safe x ++ pyQuote safe l = x :: l
    rw [quoteChar_safe (h x (by simp)), ih (fun c hc => h c (by simp [hc]))]
    rfl

theorem alwaysSafe_ne_pct {c : Char} (h : alwaysSafe c = true) : c ≠ '%' :=
  charset_ne h (by decide)

theorem pyUnquote_pyQuote {safe : List Char} {s : PyStr}
    (hs : ∀ c ∈ s, c.toNat < 128) (hp : '%' ∉ safe) :
    pyUnquote (pyQuote safe s) = s := by
  induction s with
  | nil => rfl
  | cons x l ih =>
    have hx : x.toNat < 128 := hs x (by simp)
    have ihl := ih (fun c hc => hs c (by simp [hc]))
    show pyUnquote (quoteChar safe x ++ pyQuote safe l) = x :: l
    by_cases hsafe : (alwaysSafe x || safe.contains x) = true
    · have hxp : x ≠ '%' := by
        rcases (Bool.or_eq_true _ _).mp hsafe with h | h
        · exact alwaysSafe_ne_pct h
        · intro he
          subst he
          exact hp (by simpa using h)
      rw [show quoteChar safe x = [x] from by unfold quoteChar; rw [if_pos hsafe]]
      rw [List.singleton_append, pyUnquote_cons_ne _ hxp, ihl]
    · rw [show quoteChar safe x = pctEncodeByte x.toNat from by
        unfold quoteChar; rw [if_neg hsafe]]
      rw [pyUnquote_pctEncode (by omega) _, ihl, Char.ofNat_toNat]

theorem pyLower_id {s : PyStr} (h : ∀ c ∈ s, c.toLower = c) : pyLower s = s := by
  unfold pyLower
  induction s with
  | nil => rfl
  | cons x l ih =>
    rw [List.map_cons, h x (by simp), ih (fun c hc => h c (by simp [hc]))]

theorem pyQuote_ne_nil {safe : List Char} {s : PyStr} (h : s ≠ []) :
    pyQuote safe s ≠ [] := by
  cases s with
  | nil => exact absurd rfl h
  | cons x l =>
    show quoteChar safe x ++ pyQuote safe l ≠ []
    intro he
    rcases List.append_eq_nil.mp he with ⟨h1, _⟩
    unfold quoteChar at h1
    split at h1 <;> simp_all [pctEncodeByte]

/-! ## Helper lemmas: Except reduction -/

theorem except_bind_ok {ε α β : Type} (a : α) (f : α → Except ε β) :
    (do let x ← (Except.ok a : Except ε α); f x) = f a := rfl

theorem except_bind_error {ε α β : Type} (e : ε) (f : α → Except ε β) :
    (do let x ← (Except.error e : Except ε α); f x) = Except.error e := rfl

theorem liftValueError_ok {α : Type} (a : α) :
    liftValueError (Except.ok a) = Except.ok a := rfl

theorem liftValueError_error {α : Type} (e : ErrMsg) :
    liftValueError (Except.error e : Except ErrMsg α) = Except.error (.valueError e) := rfl

/-! ## Helper lemmas: Python int() on digit strings -/

theorem not_isPySpace_of_digit {c : Char} (h : c.isDigit = true) :
    isPySpace c = false := by
  have h1 : 48 ≤ c.toNat ∧ c.toNat ≤ 57 := by
    simp only [Char.isDigit, Bool.and_eq_true, decide_eq_true_eq] at h
    exact ⟨by exact_mod_cast h.1, by exact_mod_cast h.2⟩
  by_contra hcon
  rw [Bool.not_eq_false] at hcon
  simp only [isPySpace, Bool.or_eq_true, decide_eq_true_eq] at hcon
  rcases hcon with ((((hc | hc) | hc) | hc) | hc) | hc <;>
    (subst hc; revert h1; decide)

theorem parseDigitsUAux_digits {l : PyStr} (h : ∀ c ∈ l, c.isDigit = true)
    (acc : Nat) :
    parseDigitsUAux acc l =
      some (l.foldl (fun a c => 10 * a + (c.toNat - '0'.toNat)) acc) := by
  induction l generalizing acc with
  | nil => rfl
  | cons c rest ih =>
    have hc : c.isDigit = true := h c (by simp)
    have hne : c ≠ '_' := charset_ne hc (by decide)
    unfold parseDigitsUAux
    rw [if_neg hne, if_pos hc, ih (fun d hd => h d (by simp [hd]))]
    rfl

theorem pyInt_digits {s : PyStr} (hne : s ≠ []) (h : ∀ c ∈ s, c.isDigit = true) :
    pyInt s = some (Int.ofNat (decValue s)) := by
  obtain ⟨c, rest, rfl⟩ := List.exists_cons_of_ne_nil hne
  have hc := h c (by simp)
  have hd1 : (c :: rest).dropWhile isPySpace = c :: rest := by
    rw [List.dropWhile_cons, if_neg (by simp [not_isPySpace_of_digit hc])]
  have hrev : ((c :: rest).reverse.dropWhile isPySpace) = (c :: rest).reverse := by
    cases hr : (c :: rest).reverse with
    | nil => simp at hr
    | cons b tb =>
      have hb : b ∈ c :: rest := by
        have hmem : b ∈ (c :: rest).reverse := by rw [hr]; simp
        rw [List.mem_reverse] at hmem
        exact hmem
      rw [List.dropWhile_cons,
        if_neg (by simp [not_isPySpace_of_digit (h b hb)])]
  unfold pyInt
  simp only [hd1, hrev, List.reverse_reverse]
  rw [if_neg (by simpa using charset_ne hc (by decide)),
    if_neg (by simpa using charset_ne hc (by decide))]
  rw [show parseDigitsU (c :: rest) =
      (if c.isDigit = true then parseDigitsUAux (c.toNat - '0'.toNat) rest
       else none) from rfl]
  rw [if_pos hc, parseDigitsUAux_digits (fun d hd => h d (by simp [hd]))]
  simp only [Option.map_some']
  congr 1
  have hinit : 10 * 0 + (c.toNat - '0'.toNat) = c.toNat - '0'.toNat := by omega
  simp [decValue, hinit]

/-! ## Helper lemmas: `_hostinfo` on bracketed tokens -/

theorem getD_zero_eq_headD (l : PyStr) (d : Char) : l.getD 0 d = l.headD d := by
  cases l <;> rfl

/-- `_hostinfo` on a well-bracketed token `[addr]rest`, as one equation. -/
theorem hostinfo_bracket (addr rest : PyStr) (hbr : ']' ∉ addr) :
    hostinfo ('[' :: addr ++ ']' :: rest) =
      (if rest = [] then .ok (addr, none)
       else if rest.headD ' ' ≠ ':' then .error (.parseUriError .expectedColon)
       else
         match pyInt (rest.drop 1) with
         | some port => .ok (addr, some port)
         | none => .error (.parseUriError .expectedInt)) := by
  have hfind : pyFind ']' ('[' :: addr ++ ']' :: rest) = some (addr.length + 1) := by
    show (if '[' = ']' then some 0
      else (pyFind ']' (addr ++ ']' :: rest)).map (· + 1)) = _
    rw [if_neg (by decide), pyFind_append_cons addr rest hbr]
    rfl
  have htake : ('[' :: addr ++ ']' :: rest).take (addr.length + 1) = '[' :: addr := by
    show '[' :: (addr ++ ']' :: rest).take addr.length = _
    rw [show (addr ++ ']' :: rest).take addr.length = addr from
      List.take_left addr (']' :: rest)]
  unfold hostinfo
  rw [if_neg (by simp), if_pos (by simp), hfind]
  simp only [htake, except_bind_ok, List.drop_one, List.tail_cons]
  by_cases hrest : rest = []
  · subst hrest
    rw [if_pos (by simp)]
    rfl
  · have hrl := List.length_pos.mpr hrest
    rw [if_neg
      (by simp only [List.length_append, List.length_cons]; omega)]
    rw [if_neg hrest]
    have hgetD : ('[' :: addr ++ ']' :: rest).getD (addr.length + 1 + 1) ' ' =
        rest.headD ' ' := by
      show (addr ++ ']' :: rest).getD (addr.length + 1) ' ' = _
      rw [List.getD_append_right addr (']' :: rest) ' ' (addr.length + 1)
        (by omega)]
      have he : addr.length + 1 - addr.length = 1 := by omega
      rw [he]
      show rest.getD 0 ' ' = _
      exact getD_zero_eq_headD rest ' '
    have hdrop : ('[' :: addr ++ ']' :: rest).drop (addr.length + 1 + 1 + 1) =
        rest.drop 1 := by
      show (addr ++ ']' :: rest).drop (addr.length + 1 + 1) = rest.drop 1
      have h2 : addr.length + 1 + 1 = addr.length + 2 := by omega
      rw [h2, List.drop_append 2]
      rfl
    rw [List.drop_one] at hdrop
    rw [hgetD, hdrop]

/-! ## Claim theorems: concrete evaluations -/

/-- Claim C2, counterexample: the spec's example URI uses the scheme
`ceph`, but `CephfsInfo.filesystem_type()` is `"cephfs"`, so decoding the
spec's literal string fails with the incompatible-scheme error instead of
succeeding. -/
theorem C2_ceph_scheme_counterexample :
    CephfsInfo.from_uri (fun _ => none)
      "ceph://u@(m1,m2,m3)/export?fsid=F&name=N&auth=plain:SECRETKEY".toList =
      .error (.parseUriError .incompatibleCephfs) := by decide

/-- Claim C2, amended: with the scheme spelled `cephfs`, the URI
`cephfs://u@(m1,m2,m3)/export?fsid=F&name=N&auth=plain:SECRETKEY` decodes
to `CephfsInfo(fsid="F", name="N", user="u", monitor_hosts=[m1,m2,m3],
key="SECRETKEY", path="/export")`, the `plain` auth kind taking the data
after `:` verbatim as the key (no secret-store lookup). -/
theorem C2_cephfs_plain_decode :
    CephfsInfo.from_uri (fun _ => none)
      "cephfs://u@(m1,m2,m3)/export?fsid=F&name=N&auth=plain:SECRETKEY".toList =
      .ok ⟨"F".toList, "N".toList, "/export".toList,
           ["m1".toList, "m2".toList, "m3".toList], "u".toList,
           "SECRETKEY".toList⟩ := by decide

/-- Claim C3: decoding `nfs://(192.168.1.1:2049)/export` does NOT succeed:
`urlparse`'s `hostname` property cuts the netloc at the first unescaped
`:`, so the parenthesis check fails and `NfsInfo.from_uri` raises the
invalid-host-list `ParseUriError` — contradicting the claim, the spec, and
the example URI in the library's own design comment (which is only
re-parseable in the `%3A`-escaped form its serializer actually emits). -/
theorem C3_nfs_unescaped_colon_rejected :
    NfsInfo.from_uri "nfs://(192.168.1.1:2049)/export".toList =
      .error (.parseUriError
        (.invalidHosts "nfs://(192.168.1.1:2049)/export".toList)) ∧
    NfsInfo.from_uri "nfs://(192.168.1.1%3A2049)/export".toList =
      .ok ⟨"192.168.1.1".toList, some 2049, "/export".toList⟩ := by decide

/-- Claim C5, counterexample: the host-list check only looks at the first
and last character of the decoded hostname, so the two-group string
`nfs://(10.0.0.1)(10.0.0.2)/x` passes it and decodes successfully to a
single garbage host token instead of failing with the invalid-host-list
error. -/
theorem C5_two_host_groups_counterexample :
    NfsInfo.from_uri "nfs://(10.0.0.1)(10.0.0.2)/x".toList =
      .ok ⟨"10.0.0.1)(10.0.0.2".toList, none, "/x".toList⟩ := by decide

/-- Claim C7, counterexample: the registry error for an unknown scheme
wraps the scheme in backticks — `unsupported filesystem type `smb`` — not
in the `: `-separated form the claim quotes. -/
theorem C7_registry_message_counterexample :
    uri_to_fs_info (fun _ => none) "smb://host/x".toList =
      .error (.filesystemInfoError (.unsupportedFs "smb".toList)) ∧
    (ErrMsg.unsupportedFs "smb".toList).render =
      "unsupported filesystem type `smb`" ∧
    (ErrMsg.unsupportedFs "smb".toList).render ≠
      "unsupported filesystem type: smb" := by decide

/-- Claim C8, counterexample: the port is read with Python `int()`, which
accepts a sign, so `[a]:-1` parses successfully to the negative port `-1`
instead of failing — the remainder after `:` is not required to be a
non-negative integer. -/
theorem C8_negative_port_counterexample :
    hostinfo "[a]:-1".toList = .ok ("a".toList, some (-1)) := by decide

/-- Claim C10, counterexample: in `nfs://(%41BC)/x` the letters `B` and
`C` are not percent-encoded, yet they survive decoding in upper case
(`hostname` lowercases only the part before the first `%`), so a
mixed-case host token can survive without its uppercase letters being
percent-encoded. -/
theorem C10_lowercase_counterexample :
    UriData.from_uri "nfs://(%41BC)/x".toList =
      .ok ⟨"nfs".toList, ["ABC".toList], [], "/x".toList, []⟩ := by decide

/-- Claim C1, counterexample: the valid `_UriData` with host list `["M1"]`
serializes to `nfs://(M1)/`, which decodes to the host list `["m1"]`
(`urlparse` lowercases the unescaped hostname), so `decode(encode(x))`
differs from `x` in a way that is neither ordering nor escaping
canonicalization. -/
theorem C1_roundtrip_counterexample :
    UriData.from_uri
        (UriData.toStr ⟨"nfs".toList, ["M1".toList], [], "/".toList, []⟩) =
      .ok ⟨"nfs".toList, ["m1".toList], [], "/".toList, []⟩ ∧
    (UriData.mk "nfs".toList ["m1".toList] [] "/".toList [] ≠
      UriData.mk "nfs".toList ["M1".toList] [] "/".toList []) := by decide

/-! ## Claim theorems: structural properties -/

/-- Claim C6: for every otherwise-valid nfs-scheme URI whose parenthesized
host list contains more than one comma-separated host, NFS decoding
succeeds and returns a descriptor built from the first host only,
discarding the rest ("otherwise-valid": the generic parse succeeds and the
first host token itself parses). -/
theorem C6_nfs_first_host (uri : PyStr) (info : UriData) (hn : PyStr)
    (hp : Option Int) (h1 : UriData.from_uri uri = .ok info)
    (h2 : info.scheme = "nfs".toList) (h3 : 1 < info.hosts.length)
    (h4 : hostinfo (info.hosts.headD []) = .ok (hn, hp)) :
    NfsInfo.from_uri uri = .ok ⟨hn, hp, info.path⟩ := by
  unfold NfsInfo.from_uri
  simp only [h1, except_bind_ok]
  rw [if_neg (by simp [h2, NfsInfo.filesystem_type])]
  rw [h4]
  rfl

/-- Claim C6, witness: decoding `nfs://(h1,h2)/x` succeeds and selects
`h1`, discarding `h2`. -/
theorem C6_nfs_first_host_witness :
    NfsInfo.from_uri "nfs://(h1,h2)/x".toList =
      .ok ⟨"h1".toList, none, "/x".toList⟩ :=
  C6_nfs_first_host _
    ⟨"nfs".toList, ["h1".toList, "h2".toList], [], "/x".toList, []⟩
    "h1".toList none (by decide) (by decide) (by decide) (by decide)

/-- Claim C4: decoding a URI as `CephfsInfo` fails with a `ParseUriError`
whenever any one of `user`, `name`, `fsid` or the `auth` option is absent
from the parsed `_UriData` (so no partial descriptor is ever produced),
and when `user` and `name` are present but `fsid` is missing the error is
exactly the missing-field error naming `fsid`. -/
theorem C4_cephfs_missing_fields (store : SecretStore) (uri : PyStr)
    (info : UriData) (h1 : UriData.from_uri uri = .ok info)
    (h2 : info.user = [] ∨ truthyGet info.options "name".toList = none ∨
          truthyGet info.options "fsid".toList = none ∨
          truthyGet info.options "auth".toList = none) :
    (∃ m, CephfsInfo.from_uri store uri = .error (.parseUriError m)) ∧
    (info.scheme = "cephfs".toList → info.user ≠ [] →
      truthyGet info.options "name".toList ≠ none →
      truthyGet info.options "fsid".toList = none →
      CephfsInfo.from_uri store uri = .error (.parseUriError .missingFsid)) := by
  unfold CephfsInfo.from_uri
  simp only [h1, except_bind_ok]
  constructor
  · by_cases hs : info.scheme = CephfsInfo.filesystem_type
    case neg => exact ⟨.incompatibleCephfs, by rw [if_pos hs]⟩
    case pos =>
      rw [if_neg (by simp [hs])]
      by_cases hu : info.user = []
      · rw [if_pos hu]
        exact ⟨.missingUser, rfl⟩
      · rw [if_neg hu]
        cases hname : truthyGet info.options "name".toList with
        | none => exact ⟨.missingName, rfl⟩
        | some nm =>
          cases hfsid : truthyGet info.options "fsid".toList with
          | none => exact ⟨.missingFsid, rfl⟩
          | some fs =>
            cases hauth : truthyGet info.options "auth".toList with
            | none => exact ⟨.missingAuth, rfl⟩
            | some au =>
              rcases h2 with h | h | h | h
              · exact absurd h hu
              · rw [hname] at h; exact absurd h (by simp)
              · rw [hfsid] at h; exact absurd h (by simp)
              · rw [hauth] at h; exact absurd h (by simp)
  · intro hs hu hname hfsid
    rw [if_neg (by simp [hs, CephfsInfo.filesystem_type])]
    rw [if_neg hu]
    cases hname2 : truthyGet info.options "name".toList with
    | none => exact absurd hname2 hname
    | some nm => rw [hfsid]

/-- Claim C4, witness: a CephFS URI with `name` and `auth` but no `fsid`
fails with the missing-field error naming `fsid`. -/
theorem C4_cephfs_missing_fields_witness :
    CephfsInfo.from_uri (fun _ => none)
      "cephfs://u@(h)/p?name=N&auth=plain:K".toList =
      .error (.parseUriError .missingFsid) :=
  (C4_cephfs_missing_fields (fun _ => none) _
      ⟨"cephfs".toList, ["h".toList], "u".toList, "/p".toList,
       [("name".toList, "N".toList), ("auth".toList, "plain:K".toList)]⟩
      (by decide) (by decide)).2
    (by decide) (by decide) (by decide) (by decide)

/-- Claim C7, amended: the registry extracts the scheme as the prefix
before `://` and dispatches `nfs` and `cephfs` to the matching decoder;
any other scheme raises the `FilesystemInfoError` whose message wraps the
scheme in backticks: ``unsupported filesystem type `<scheme>` ``. -/
theorem C7_registry_dispatch_amended (store : SecretStore) (uri : PyStr) :
    (schemeOf uri ≠ "nfs".toList → schemeOf uri ≠ "cephfs".toList →
      uri_to_fs_info store uri =
        .error (.filesystemInfoError (.unsupportedFs (schemeOf uri)))) ∧
    (schemeOf uri = "nfs".toList →
      uri_to_fs_info store uri = (NfsInfo.from_uri uri).map .nfs) ∧
    (schemeOf uri = "cephfs".toList →
      uri_to_fs_info store uri = (CephfsInfo.from_uri store uri).map .cephfs) := by
  refine ⟨fun hn hc => ?_, fun hn => ?_, fun hc => ?_⟩
  · have hn' : ¬(schemeOf uri = NfsInfo.filesystem_type) := hn
    have hc' : ¬(schemeOf uri = CephfsInfo.filesystem_type) := hc
    simp [uri_to_fs_info, hn', hc']
  · have hn' : schemeOf uri = NfsInfo.filesystem_type := hn
    simp [uri_to_fs_info, hn']
  · have hc' : schemeOf uri = CephfsInfo.filesystem_type := hc
    have hn' : ¬(schemeOf uri = NfsInfo.filesystem_type) := by
      rw [hc]
      decide
    simp [uri_to_fs_info, hn', hc']
    intro hee
    exact absurd hee (by decide)

/-- Claim C7, witness: `smb://host/x` fails through the registry with the
backticked unsupported-filesystem-type error. -/
theorem C7_registry_dispatch_witness :
    uri_to_fs_info (fun _ => none) "smb://host/x".toList =
      .error (.filesystemInfoError (.unsupportedFs "smb".toList)) := by
  have h := (C7_registry_dispatch_amended (fun _ => none) "smb://host/x".toList).1
    (by decide) (by decide)
  rw [h]
  decide

/-- Claim C8, amended: for a bracketed host token the parser returns the
bracket interior as the hostname; characters after the closing bracket
must start with `:` or parsing fails; the remainder after `:` must parse
as a Python `int()` literal (sign and underscores allowed, so possibly
negative) or parsing fails; in particular for every `[addr]:port` with an
all-digit port the result is `(addr, port)`. -/
theorem C8_bracketed_host_amended (addr rest : PyStr) (hbr : ']' ∉ addr) :
    (rest = [] → hostinfo ('[' :: addr ++ ']' :: rest) = .ok (addr, none)) ∧
    (rest ≠ [] → rest.headD ' ' ≠ ':' →
      hostinfo ('[' :: addr ++ ']' :: rest) =
        .error (.parseUriError .expectedColon)) ∧
    (∀ r2, rest = ':' :: r2 →
      hostinfo ('[' :: addr ++ ']' :: rest) =
        (match pyInt r2 with
         | some port => .ok (addr, some port)
         | none => .error (.parseUriError .expectedInt))) ∧
    (∀ r2, rest = ':' :: r2 → r2 ≠ [] → (∀ c ∈ r2, c.isDigit = true) →
      hostinfo ('[' :: addr ++ ']' :: rest) =
        .ok (addr, some (Int.ofNat (decValue r2)))) := by
  rw [hostinfo_bracket addr rest hbr]
  refine ⟨fun he => ?_, fun hne hcol => ?_, fun r2 he => ?_, fun r2 he hne hdig => ?_⟩
  · rw [if_pos he]
  · rw [if_neg hne, if_pos hcol]
  · subst he
    rw [if_neg (by simp), if_neg (by simp), List.drop_one, List.tail_cons]
  · subst he
    rw [if_neg (by simp), if_neg (by simp), List.drop_one, List.tail_cons,
      pyInt_digits hne hdig]

/-- Claim C8, witness: `[a]:22` parses to `("a", 22)` through the amended
theorem. -/
theorem C8_bracketed_host_witness :
    hostinfo "[a]:22".toList = .ok ("a".toList, some 22) :=
  (C8_bracketed_host_amended "a".toList ":22".toList (by decide)).2.2.2
    "22".toList (by decide) (by decide) (by decide)

/-- The validating constructor only ever reports an empty scheme or an
empty host list. -/
theorem mk?_error_cases {s : PyStr} {h : List PyStr} {u p : PyStr}
    {o : List (PyStr × PyStr)} {m : ErrMsg}
    (he : UriData.mk? s h u p o = .error m) :
    m = .schemeEmpty ∨ m = .hostsEmpty := by
  unfold UriData.mk? at he
  split_ifs at he
  · exact Or.inl (by injection he with h2; exact h2.symm)
  · exact Or.inr (by injection he with h2; exact h2.symm)

/-- Claim C5, amended: given a URI whose generic `urlparse` succeeds, the
dedicated invalid-host-list error is raised exactly when the percent-
decoded hostname component is empty, does not start with `(`, or does not
end with `)`.  A string of two parenthesized groups satisfies this check,
so it decodes successfully as one garbage host token; missing `(` or
missing `)` do fail; an empty interior `()` passes the check. -/
theorem C5_hostlist_check_amended (uri : PyStr) (r : PySplitResult)
    (h : pyUrlparse uri = .ok r) :
    UriData.from_uri uri = .error (.parseUriError (.invalidHosts uri)) ↔
      (pyUnquote ((pyHostname r.netloc).getD []) = [] ∨
       (pyUnquote ((pyHostname r.netloc).getD [])).headD ' ' ≠ '(' ∨
       (pyUnquote ((pyHostname r.netloc).getD [])).getLastD ' ' ≠ ')') := by
  unfold UriData.from_uri
  rw [h, liftValueError_ok]
  rw [except_bind_ok]
  by_cases hc : (pyUnquote ((pyHostname r.netloc).getD []) = [] ∨
      (pyUnquote ((pyHostname r.netloc).getD [])).headD ' ' ≠ '(' ∨
      (pyUnquote ((pyHostname r.netloc).getD [])).getLastD ' ' ≠ ')')
  · rw [if_pos hc]
    exact iff_of_true rfl hc
  · rw [if_neg hc]
    simp only [hc, iff_false]
    split
    · simp
    · split
      · simp
      · rename_i m hmk
        rcases mk?_error_cases hmk with rfl | rfl <;> simp

/-- Claim C5, witness: a URI without the parentheses around the host,
`nfs://10.0.0.1/x`, fails with the invalid-host-list error. -/
theorem C5_hostlist_check_witness :
    UriData.from_uri "nfs://10.0.0.1/x".toList =
      .error (.parseUriError (.invalidHosts "nfs://10.0.0.1/x".toList)) :=
  (C5_hostlist_check_amended "nfs://10.0.0.1/x".toList
      ⟨"nfs".toList, "10.0.0.1".toList, "/x".toList, []⟩ (by decide)).mpr
    (by decide)

/-- `urlencode` of a non-empty mapping is a non-empty string. -/
theorem pyUrlencode_ne_nil {l : List (PyStr × PyStr)} (h : l ≠ []) :
    pyUrlencode l ≠ [] := by
  obtain ⟨p, ps, rfl⟩ := List.exists_cons_of_ne_nil h
  cases ps with
  | nil =>
    unfold pyUrlencode
    rw [List.map_cons, List.map_nil, intercalate_single]
    intro he
    rcases List.append_eq_nil.mp he with ⟨_, h2⟩
    cases h2
  | cons q qs =>
    unfold pyUrlencode
    rw [List.map_cons, List.map_cons, intercalate_cons_cons]
    intro he
    rcases List.append_eq_nil.mp he with ⟨h1, _⟩
    rcases List.append_eq_nil.mp h1 with ⟨_, h2⟩
    cases h2

/-- `quote` returns the empty string only on the empty string. -/
theorem pyQuote_nil_iff {safe : List Char} {s : PyStr} :
    pyQuote safe s = [] ↔ s = [] := by
  constructor
  · intro h
    by_contra hne
    exact pyQuote_ne_nil hne h
  · intro h
    rw [h]
    rfl

/-- `urlencode` returns the empty string only on the empty mapping. -/
theorem pyUrlencode_nil_iff {l : List (PyStr × PyStr)} :
    pyUrlencode l = [] ↔ l = [] := by
  constructor
  · intro h
    by_contra hne
    exact pyUrlencode_ne_nil hne h
  · intro h
    rw [h]
    rfl

/-- The exact shape of `_UriData.__str__`'s output, as one equation. -/
theorem toStr_decomposition (d : UriData) (hs : d.scheme ≠ []) :
    UriData.toStr d =
      d.scheme ++ ':' :: '/' :: '/' ::
        ((if d.user ≠ [] then pyQuote ['/'] d.user ++ ['@'] else []) ++
         '(' :: pyQuote ['/'] (List.intercalate [','] d.hosts) ++ [')'] ++
         (if pyQuote ['/'] d.path ≠ [] ∧ (pyQuote ['/'] d.path).headD ' ' ≠ '/'
          then '/' :: pyQuote ['/'] d.path else pyQuote ['/'] d.path) ++
         (if d.options ≠ [] then '?' :: pyUrlencode d.options else [])) := by
  have hqu : pyQuote ['/'] d.user = [] ↔ d.user = [] := pyQuote_nil_iff
  have hqe : pyUrlencode d.options = [] ↔ d.options = [] := pyUrlencode_nil_iff
  simp only [UriData.toStr, pyUrlunsplit]
  by_cases hu : d.user = []
  · rw [if_neg (not_not_intro (hqu.mpr hu))]
    rw [if_neg (not_not_intro hu)]
    rw [if_pos (Or.inl (by simp))]
    rw [if_pos hs]
    by_cases ho : d.options = []
    · rw [if_neg (not_not_intro (hqe.mpr ho)), if_neg (not_not_intro ho)]
      simp [List.append_assoc]
    · rw [if_pos (pyUrlencode_ne_nil ho), if_pos ho]
      simp [List.append_assoc]
  · rw [if_pos (pyQuote_ne_nil hu)]
    rw [if_pos hu]
    rw [if_pos (Or.inl (by simp))]
    rw [if_pos hs]
    by_cases ho : d.options = []
    · rw [if_neg (not_not_intro (hqe.mpr ho)), if_neg (not_not_intro ho)]
      simp [List.append_assoc]
    · rw [if_pos (pyUrlencode_ne_nil ho), if_pos ho]
      simp [List.append_assoc]

/-- Claim C9: serialization always wraps the host list in parentheses
(even for a single host), includes the `user@` segment iff the user is
non-empty, and includes the `?`-prefixed options segment iff the options
mapping is non-empty — exhibited by the exact shape of the produced
string. -/
theorem C9_serialization_shape (d : UriData) (hs : d.scheme ≠ []) :
    UriData.toStr d =
      d.scheme ++ ':' :: '/' :: '/' ::
        ((if d.user ≠ [] then pyQuote ['/'] d.user ++ ['@'] else []) ++
         '(' :: pyQuote ['/'] (List.intercalate [','] d.hosts) ++ [')'] ++
         (if pyQuote ['/'] d.path ≠ [] ∧ (pyQuote ['/'] d.path).headD ' ' ≠ '/'
          then '/' :: pyQuote ['/'] d.path else pyQuote ['/'] d.path) ++
         (if d.options ≠ [] then '?' :: pyUrlencode d.options else [])) ∧
    (pyQuote ['/'] d.user = [] ↔ d.user = []) ∧
    (pyUrlencode d.options = [] ↔ d.options = []) :=
  ⟨toStr_decomposition d hs, pyQuote_nil_iff, pyUrlencode_nil_iff⟩

/-- Claim C9, witness: the shape at a concrete value with user and
options present. -/
theorem C9_serialization_shape_witness :
    UriData.toStr ⟨"nfs".toList, ["h".toList], "u".toList, "/x".toList,
      [("a".toList, "b".toList)]⟩ = "nfs://u@(h)/x?a=b".toList := by
  have h := (C9_serialization_shape ⟨"nfs".toList, ["h".toList], "u".toList,
    "/x".toList, [("a".toList, "b".toList)]⟩ (by decide)).1
  rw [h]
  decide

/-! ## Helper lemmas: `urlsplit` on well-formed URIs -/

theorem splitnetloc_eq (netloc rest : PyStr)
    (hn : ∀ c ∈ netloc, ¬(c = '/' ∨ c = '?' ∨ c = '#'))
    (hrne : rest ≠ []) (hr : rest.headD ' ' = '/') :
    splitnetloc (netloc ++ rest) = (netloc, rest) := by
  obtain ⟨r0, rest', rfl⟩ := List.exists_cons_of_ne_nil hrne
  have hr0 : r0 = '/' := by simpa using hr
  subst hr0
  have hslash : '/' ∉ netloc := fun hm => hn _ hm (Or.inl rfl)
  have hq : '?' ∉ netloc := fun hm => hn _ hm (Or.inr (Or.inl rfl))
  have hh : '#' ∉ netloc := fun hm => hn _ hm (Or.inr (Or.inr rfl))
  have hfind1 : pyFind '/' (netloc ++ '/' :: rest') = some netloc.length :=
    pyFind_append_cons netloc rest' hslash
  have hd1 : minOpt (netloc ++ '/' :: rest').length (some netloc.length) =
      netloc.length := by
    show min (netloc ++ '/' :: rest').length netloc.length = netloc.length
    have hle : netloc.length ≤ (netloc ++ '/' :: rest').length := by simp
    omega
  have hstep : ∀ c, c ∉ netloc →
      minOpt netloc.length (pyFind c (netloc ++ '/' :: rest')) = netloc.length := by
    intro c hc
    rw [pyFind_append_not_mem netloc ('/' :: rest') hc]
    cases pyFind c ('/' :: rest') with
    | none => rfl
    | some k =>
      show min netloc.length (k + netloc.length) = netloc.length
      omega
  simp only [splitnetloc]
  rw [hfind1, hd1, hstep '?' hq, hstep '#' hh]
  rw [List.take_left netloc ('/' :: rest'), List.drop_left netloc ('/' :: rest')]

theorem pyUrlsplit_wellformed (scheme netloc path query : PyStr)
    (hs1 : scheme ≠ []) (hs0 : (scheme.headD ' ').isAlpha = true)
    (hsc : ∀ c ∈ scheme, schemeChars c = true) (hscolon : ':' ∉ scheme)
    (hclean :
      removeUnsafe (scheme ++ ':' :: '/' :: '/' ::
          (netloc ++ (path ++ (if query = [] then [] else '?' :: query)))) =
        scheme ++ ':' :: '/' :: '/' ::
          (netloc ++ (path ++ (if query = [] then [] else '?' :: query))))
    (hnet : ∀ c ∈ netloc, ¬(c = '/' ∨ c = '?' ∨ c = '#' ∨ c = '[' ∨ c = ']'))
    (hph : path.headD ' ' = '/') (hpne : path ≠ []) (hpq : '?' ∉ path) :
    pyUrlsplit (scheme ++ ':' :: '/' :: '/' ::
        (netloc ++ (path ++ (if query = [] then [] else '?' :: query)))) =
      .ok ⟨pyLower scheme, netloc, path, query⟩ := by
  have hnet3 : ∀ c ∈ netloc, ¬(c = '/' ∨ c = '?' ∨ c = '#') := by
    intro c hc hor
    exact hnet c hc (by tauto)
  unfold pyUrlsplit
  rw [hclean]
  simp only []
  rw [pyFind_append_cons scheme
    ('/' :: '/' :: (netloc ++ (path ++ (if query = [] then [] else '?' :: query))))
    hscolon]
  simp only []
  have hcond : 0 < scheme.length ∧
      ((scheme ++ ':' :: '/' :: '/' ::
        (netloc ++ (path ++ (if query = [] then [] else '?' :: query)))).headD
          ' ').isAlpha = true ∧
      ((scheme ++ ':' :: '/' :: '/' ::
        (netloc ++ (path ++ (if query = [] then [] else '?' :: query)))).take
          scheme.length).all schemeChars = true := by
    obtain ⟨c0, s', rfl⟩ := List.exists_cons_of_ne_nil hs1
    refine ⟨by simp, by simpa using hs0, ?_⟩
    rw [show ((c0 :: s') ++ ':' :: '/' :: '/' ::
        (netloc ++ (path ++ (if query = [] then [] else '?' :: query)))).take
          (c0 :: s').length = c0 :: s' from List.take_left _ _]
    rw [List.all_eq_true]
    intro c hc
    exact hsc c hc
  rw [if_pos hcond]
  rw [show (scheme ++ ':' :: '/' :: '/' ::
      (netloc ++ (path ++ (if query = [] then [] else '?' :: query)))).take
        scheme.length = scheme from List.take_left _ _]
  rw [show (scheme ++ ':' :: '/' :: '/' ::
      (netloc ++ (path ++ (if query = [] then [] else '?' :: query)))).drop
        (scheme.length + 1) =
      '/' :: '/' :: (netloc ++ (path ++ (if query = [] then [] else '?' :: query)))
    from by rw [List.drop_append 1]; rfl]
  simp only []
  rw [if_pos (by rfl)]
  rw [show ('/' :: '/' ::
      (netloc ++ (path ++ (if query = [] then [] else '?' :: query)))).drop 2 =
      netloc ++ (path ++ (if query = [] then [] else '?' :: query)) from rfl]
  rw [splitnetloc_eq netloc (path ++ (if query = [] then [] else '?' :: query))
    hnet3
    (by intro he
        rcases List.append_eq_nil.mp he with ⟨h1, _⟩
        exact hpne h1)
    (by obtain ⟨p0, p', rfl⟩ := List.exists_cons_of_ne_nil hpne
        simpa using hph)]
  simp only []
  have hbr : ¬(('[' ∈ netloc ∧ ']' ∉ netloc) ∨ (']' ∈ netloc ∧ '[' ∉ netloc)) := by
    rintro (⟨hm, _⟩ | ⟨hm, _⟩)
    · exact hnet _ hm (by tauto)
    · exact hnet _ hm (by tauto)
  rw [if_neg hbr]
  by_cases hq0 : query = []
  · subst hq0
    rw [show path ++ (if ([] : PyStr) = [] then [] else '?' :: []) = path from by
      rw [if_pos rfl, List.append_nil]]
    rw [splitOnceSub_not_mem hpq]
  · rw [show path ++ (if query = [] then [] else '?' :: query) =
      path ++ '?' :: query from by rw [if_neg hq0]]
    rw [splitOnceSub_cons_self path query hpq]

theorem pyUrlparse_wellformed (scheme netloc path query : PyStr)
    (hs1 : scheme ≠ []) (hs0 : (scheme.headD ' ').isAlpha = true)
    (hsc : ∀ c ∈ scheme, schemeChars c = true) (hscolon : ':' ∉ scheme)
    (hclean :
      removeUnsafe (scheme ++ ':' :: '/' :: '/' ::
          (netloc ++ (path ++ (if query = [] then [] else '?' :: query)))) =
        scheme ++ ':' :: '/' :: '/' ::
          (netloc ++ (path ++ (if query = [] then [] else '?' :: query))))
    (hnet : ∀ c ∈ netloc, ¬(c = '/' ∨ c = '?' ∨ c = '#' ∨ c = '[' ∨ c = ']'))
    (hph : path.headD ' ' = '/') (hpne : path ≠ []) (hpq : '?' ∉ path)
    (hsemi : ';' ∉ path) :
    pyUrlparse (scheme ++ ':' :: '/' :: '/' ::
        (netloc ++ (path ++ (if query = [] then [] else '?' :: query)))) =
      .ok ⟨pyLower scheme, netloc, path, query⟩ := by
  unfold pyUrlparse
  rw [pyUrlsplit_wellformed scheme netloc path query hs1 hs0 hsc hscolon hclean
    hnet hph hpne hpq]
  rw [except_bind_ok]
  rw [if_neg (fun hand => hsemi hand.2)]

/-! ## Helper lemmas: netloc properties and lowercasing arithmetic -/

theorem removeUnsafe_eq_self {s : PyStr}
    (h : ∀ c ∈ s, c ≠ '\t' ∧ c ≠ '\x0d' ∧ c ≠ '\n') : removeUnsafe s = s := by
  unfold removeUnsafe
  rw [List.filter_eq_self]
  intro a ha
  rcases h a ha with ⟨h1, h2, h3⟩
  simp [h1, h2, h3]

theorem pyUsername_no_at {netloc : PyStr} (h : '@' ∉ netloc) :
    pyUsername netloc = none := by
  unfold pyUsername
  rw [pyRPartition_not_mem h]
  rfl

theorem pyUsername_at {user rest : PyStr} (hu : '@' ∉ user) (hr : '@' ∉ rest)
    (hc : ':' ∉ user) :
    pyUsername (user ++ '@' :: rest) = some user := by
  unfold pyUsername
  rw [pyRPartition_last user rest hr]
  simp only []
  rw [if_pos trivial, pyPartition_not_mem hc]

theorem pyHostname_preNorm {netloc : PyStr} (hat : '@' ∉ netloc)
    (hbr : '[' ∉ netloc) (hcol : ':' ∉ netloc) (hne : netloc ≠ []) :
    pyHostname netloc =
      (match splitOnceSub ['%'] netloc with
       | some (before, after) => some (pyLower before ++ '%' :: after)
       | none => some (pyLower netloc)) := by
  unfold pyHostname
  rw [pyRPartition_not_mem hat]
  simp only []
  rw [splitOnceSub_not_mem hbr]
  simp only []
  rw [pyPartition_not_mem hcol]
  simp only []
  rw [if_neg hne]

theorem pyHostname_at {user rest : PyStr} (hu : '@' ∉ user) (hr : '@' ∉ rest)
    (hbr : '[' ∉ rest) (hcol : ':' ∉ rest) (hne : rest ≠ []) :
    pyHostname (user ++ '@' :: rest) =
      (match splitOnceSub ['%'] rest with
       | some (before, after) => some (pyLower before ++ '%' :: after)
       | none => some (pyLower rest)) := by
  unfold pyHostname
  rw [pyRPartition_last user rest hr]
  simp only []
  rw [splitOnceSub_not_mem hbr]
  simp only []
  rw [pyPartition_not_mem hcol]
  simp only []
  rw [if_neg hne]

theorem toNat_ofNat_small {n : Nat} (h : n < 55296) : (Char.ofNat n).toNat = n := by
  unfold Char.ofNat
  rw [dif_pos (Or.inl (by omega))]
  rfl

theorem toLower_toNat {c : Char} :
    c.toLower.toNat =
      if 65 ≤ c.toNat ∧ c.toNat ≤ 90 then c.toNat + 32 else c.toNat := by
  unfold Char.toLower
  simp only []
  by_cases h : 65 ≤ c.toNat ∧ c.toNat ≤ 90
  · rw [if_pos h, if_pos h]
    exact toNat_ofNat_small (by omega)
  · rw [if_neg h, if_neg h]

/-- ASCII letters and digits. -/
def alnumChar (c : Char) : Bool := c.isAlpha || c.isDigit

theorem alnumChar_toNat {c : Char} (h : alnumChar c = true) :
    (65 ≤ c.toNat ∧ c.toNat ≤ 90) ∨ (97 ≤ c.toNat ∧ c.toNat ≤ 122) ∨
    (48 ≤ c.toNat ∧ c.toNat ≤ 57) := by
  simp only [alnumChar, Char.isAlpha, Char.isUpper, Char.isLower, Char.isDigit,
    Bool.or_eq_true, Bool.and_eq_true, decide_eq_true_eq] at h
  rcases h with (⟨h1, h2⟩ | ⟨h1, h2⟩) | ⟨h1, h2⟩
  · exact Or.inl ⟨by exact_mod_cast h1, by exact_mod_cast h2⟩
  · exact Or.inr (Or.inl ⟨by exact_mod_cast h1, by exact_mod_cast h2⟩)
  · exact Or.inr (Or.inr ⟨by exact_mod_cast h1, by exact_mod_cast h2⟩)

theorem lowerHostChar_of_toNat {c : Char}
    (h : (97 ≤ c.toNat ∧ c.toNat ≤ 122) ∨ (48 ≤ c.toNat ∧ c.toNat ≤ 57)) :
    lowerHostChar c = true := by
  simp only [lowerHostChar, Char.isLower, Char.isDigit, Bool.or_eq_true,
    Bool.and_eq_true, decide_eq_true_eq]
  rcases h with ⟨h1, h2⟩ | ⟨h1, h2⟩
  · exact Or.inl (Or.inl (Or.inl (Or.inl
      (Or.inl ⟨by exact_mod_cast h1, by exact_mod_cast h2⟩))))
  · exact Or.inl (Or.inl (Or.inl (Or.inl
      (Or.inr ⟨by exact_mod_cast h1, by exact_mod_cast h2⟩))))

theorem alnum_toLower_lowerHost {c : Char} (h : alnumChar c = true) :
    lowerHostChar c.toLower = true := by
  have hr := alnumChar_toNat h
  apply lowerHostChar_of_toNat
  rw [toLower_toNat]
  rcases hr with ⟨h1, h2⟩ | ⟨h1, h2⟩ | ⟨h1, h2⟩
  · rw [if_pos ⟨h1, h2⟩]
    exact Or.inl ⟨by omega, by omega⟩
  · rw [if_neg (by omega)]
    exact Or.inl ⟨h1, h2⟩
  · rw [if_neg (by omega)]
    exact Or.inr ⟨h1, h2⟩

theorem pyLower_mem_lowerHost {s : PyStr} (h : ∀ c ∈ s, alnumChar c = true) :
    ∀ c ∈ pyLower s, lowerHostChar c = true := by
  intro c hc
  rcases List.mem_map.mp hc with ⟨c0, hc0, rfl⟩
  exact alnum_toLower_lowerHost (h c0 hc0)

theorem getLastD_concat (l : PyStr) (a d : Char) : (l ++ [a]).getLastD d = a := by
  rw [List.getLastD_eq_getLast?, List.getLast?_concat]
  rfl

/-- Alphanumeric characters are none of `urlsplit`'s netloc delimiters. -/
theorem not_delim_of_alnum {c : Char} (h : alnumChar c = true) :
    ¬(c = '/' ∨ c = '?' ∨ c = '#' ∨ c = '[' ∨ c = ']') := by
  rintro (rfl | rfl | rfl | rfl | rfl) <;> exact absurd h (by decide)

/-- Alphanumeric characters are not among the removed unsafe bytes. -/
theorem clean_of_alnum {c : Char} (h : alnumChar c = true) :
    c ≠ '\t' ∧ c ≠ '\x0d' ∧ c ≠ '\n' :=
  ⟨charset_ne h (by decide), charset_ne h (by decide), charset_ne h (by decide)⟩

/-- Membership in a parenthesized segment `'(' :: (s ++ [')'])` decomposes
into the two bracket characters and membership in `s`. -/
theorem not_mem_paren {s : PyStr} {c : Char} (h1 : c ≠ '(') (h2 : c ≠ ')')
    (hs : c ∉ s) : c ∉ '(' :: (s ++ [')']) := by
  intro hmem
  rcases List.mem_cons.mp hmem with he | hmem2
  · exact h1 he
  rcases List.mem_append.mp hmem2 with he | he
  · exact hs he
  · rcases List.mem_cons.mp he with he2 | he2
    · exact h2 he2
    · cases he2

/-! ## Claim theorem C10 amended -/

/-- Claim C10, amended: for a `%`-free host-list segment every alphabetic
character is lowercased on decode, because the `hostname` property
lowercases the part of the netloc before its first `%`; per the
counterexample theorem, unescaped uppercase letters after a `%` instead
survive, so the "only if percent-encoded" universal of the original claim
fails while lowercasing of `%`-free hosts holds. -/
theorem C10_lowercase_amended (s : PyStr) (h : ∀ c ∈ s, alnumChar c = true) :
    UriData.from_uri
        (['n', 'f', 's', ':', '/', '/', '('] ++ s ++ [')', '/', 'x']) =
      .ok ⟨['n', 'f', 's'], [pyLower s], [], ['/', 'x'], []⟩ := by
  have hlow : ∀ c ∈ pyLower s, lowerHostChar c = true := pyLower_mem_lowerHost h
  have huri : ['n', 'f', 's', ':', '/', '/', '('] ++ s ++ [')', '/', 'x'] =
      ['n', 'f', 's'] ++ ':' :: '/' :: '/' ::
        (('(' :: (s ++ [')'])) ++ (['/', 'x'] ++
          (if ([] : PyStr) = [] then [] else '?' :: []))) := by
    simp
  rw [huri]
  have hat : '@' ∉ '(' :: (s ++ [')']) :=
    not_mem_paren (by decide) (by decide)
      (fun he => absurd (h _ he) (by decide))
  have hbrk : '[' ∉ '(' :: (s ++ [')']) :=
    not_mem_paren (by decide) (by decide)
      (fun he => absurd (h _ he) (by decide))
  have hcol : ':' ∉ '(' :: (s ++ [')']) :=
    not_mem_paren (by decide) (by decide)
      (fun he => absurd (h _ he) (by decide))
  have hpct : '%' ∉ '(' :: (s ++ [')']) :=
    not_mem_paren (by decide) (by decide)
      (fun he => absurd (h _ he) (by decide))
  have hparse := pyUrlparse_wellformed ['n', 'f', 's'] ('(' :: (s ++ [')']))
    ['/', 'x'] [] (by decide) (by decide) (by decide) (by decide)
    (by
      rw [← huri]
      refine removeUnsafe_eq_self ?_
      intro c hc
      rcases List.mem_append.mp hc with hc2 | hc2
      · rcases List.mem_append.mp hc2 with hc3 | hc3
        · fin_cases hc3 <;> exact ⟨by decide, by decide, by decide⟩
        · exact clean_of_alnum (h c hc3)
      · fin_cases hc2 <;> exact ⟨by decide, by decide, by decide⟩)
    (by
      intro c hc
      rcases List.mem_cons.mp hc with rfl | hc2
      · decide
      rcases List.mem_append.mp hc2 with hc3 | hc3
      · exact not_delim_of_alnum (h c hc3)
      · rcases List.mem_cons.mp hc3 with rfl | hc4
        · decide
        · cases hc4)
    (by decide) (by decide) (by decide) (by decide)
  unfold UriData.from_uri
  rw [hparse, liftValueError_ok, except_bind_ok]
  simp only []
  rw [pyUsername_no_at hat,
    pyHostname_preNorm hat hbrk hcol (by simp)]
  rw [splitOnceSub_not_mem hpct]
  simp only [Option.getD_some, Option.getD_none]
  have hplow : pyLower ('(' :: (s ++ [')'])) = '(' :: (pyLower s ++ [')']) := by
    unfold pyLower
    rw [List.map_cons, List.map_append]
    rfl
  rw [hplow]
  have hpct2 : '%' ∉ '(' :: (pyLower s ++ [')']) :=
    not_mem_paren (by decide) (by decide)
      (fun he => absurd (hlow _ he) (by decide))
  rw [pyUnquote_not_mem hpct2]
  rw [show pyUnquote [] = [] from rfl]
  have hlast : ('(' :: (pyLower s ++ [')'])).getLastD ' ' = ')' := by
    rw [show ('(' :: (pyLower s ++ [')'])) = ('(' :: pyLower s) ++ [')'] from
      rfl]
    exact getLastD_concat _ _ _
  rw [if_neg (by
    push_neg
    exact ⟨by simp, rfl, by rw [hlast]⟩)]
  rw [show (('(' :: (pyLower s ++ [')'])).drop 1).dropLast = pyLower s from by
    rw [show ('(' :: (pyLower s ++ [')'])).drop 1 = pyLower s ++ [')'] from rfl]
    exact List.dropLast_concat]
  rw [pySplitChar_not_mem (charset_not_mem hlow (by decide))]
  rw [if_neg (by simp)]
  simp only []
  rw [show pyUnquote ['/', 'x'] = ['/', 'x'] from rfl]
  simp only [List.map_nil]
  rw [show pyLower ['n', 'f', 's'] = ['n', 'f', 's'] from rfl]
  rw [show UriData.mk? ['n', 'f', 's'] [pyLower s] [] ['/', 'x'] [] =
      .ok ⟨['n', 'f', 's'], [pyLower s], [], ['/', 'x'], []⟩ from by
    unfold UriData.mk?
    rw [if_neg (by decide), if_neg (by simp), if_neg (by decide)]]

/-- Claim C10, witness: `nfs://(AbC)/x` decodes with the host lowercased
to `abc`. -/
theorem C10_lowercase_witness :
    (∀ c ∈ ['A', 'b', 'C'], alnumChar c = true) ∧
      UriData.from_uri "nfs://(AbC)/x".toList =
        .ok ⟨"nfs".toList, ["abc".toList], [], "/x".toList, []⟩ := by
  refine ⟨by decide, ?_⟩
  have h := C10_lowercase_amended ['A', 'b', 'C'] (by decide)
  have he : (['n', 'f', 's', ':', '/', '/', '('] ++ ['A', 'b', 'C'] ++
      [')', '/', 'x'] : PyStr) = "nfs://(AbC)/x".toList := by decide
  rw [he] at h
  rw [h]
  decide

/-! ## Helper lemmas: round-trip character classes -/

theorem isAlpha_of_isLower {c : Char} (h : c.isLower = true) :
    c.isAlpha = true := by
  simp [Char.isAlpha, h]

theorem clean_of_alwaysSafe {c : Char} (h : alwaysSafe c = true) :
    c ≠ '\t' ∧ c ≠ '\x0d' ∧ c ≠ '\n' :=
  ⟨charset_ne h (by decide), charset_ne h (by decide), charset_ne h (by decide)⟩

theorem clean_of_lowerHost {c : Char} (h : lowerHostChar c = true) :
    c ≠ '\t' ∧ c ≠ '\x0d' ∧ c ≠ '\n' :=
  clean_of_alwaysSafe (lowerHostChar_alwaysSafe h)

theorem not_delim_of_alwaysSafe {c : Char} (h : alwaysSafe c = true) :
    ¬(c = '/' ∨ c = '?' ∨ c = '#' ∨ c = '[' ∨ c = ']') := by
  rintro (rfl | rfl | rfl | rfl | rfl) <;> exact absurd h (by decide)

theorem not_delim_of_lowerHost {c : Char} (h : lowerHostChar c = true) :
    ¬(c = '/' ∨ c = '?' ∨ c = '#' ∨ c = '[' ∨ c = ']') :=
  not_delim_of_alwaysSafe (lowerHostChar_alwaysSafe h)

/-- A successful substring split at a single-character separator decomposes
its input. -/
theorem splitOnceSub_some_eq {c : Char} {s a b : PyStr}
    (h : splitOnceSub [c] s = some (a, b)) : s = a ++ c :: b := by
  induction s generalizing a with
  | nil => cases h
  | cons x rest ih =>
    unfold splitOnceSub at h
    by_cases hpre : List.isPrefixOf [c] (x :: rest) = true
    · rw [if_pos hpre] at h
      have hx : c = x := by
        simp only [List.isPrefixOf, Bool.and_eq_true] at hpre
        simpa using hpre.1
      injection h with h2
      cases h2
      rw [← hx]
      rfl
    · rw [if_neg hpre] at h
      cases hsp : splitOnceSub [c] rest with
      | none => rw [hsp] at h; cases h
      | some p =>
        rw [hsp] at h
        simp only [Option.map_some'] at h
        injection h with h2
        cases h2
        rw [List.cons_append, ih hsp]

/-! ## Helper lemmas: the percent-encoded host join -/

/-- Quoting the comma-joined host list encodes exactly the commas. -/
theorem quote_hostjoin {hosts : List PyStr}
    (h : ∀ x ∈ hosts, ∀ c ∈ x, lowerHostChar c = true) :
    pyQuote ['/'] (List.intercalate [','] hosts) =
      List.intercalate ['%', '2', 'C'] hosts := by
  induction hosts with
  | nil => rfl
  | cons a r ih =>
    cases r with
    | nil =>
      rw [intercalate_single, intercalate_single]
      exact pyQuote_id
        (fun c hc => Or.inl (lowerHostChar_alwaysSafe (h a (by simp) c hc)))
    | cons b r2 =>
      rw [intercalate_cons_cons, intercalate_cons_cons]
      rw [pyQuote_append, pyQuote_append]
      rw [pyQuote_id
        (fun c hc => Or.inl (lowerHostChar_alwaysSafe (h a (by simp) c hc)))]
      rw [ih (fun x hx => h x (by simp [hx]))]
      rfl

/-- Unquoting the percent-joined host list decodes exactly the commas. -/
theorem unquote_hostjoin {hosts : List PyStr}
    (h : ∀ x ∈ hosts, ∀ c ∈ x, lowerHostChar c = true) (rest : PyStr) :
    pyUnquote (List.intercalate ['%', '2', 'C'] hosts ++ rest) =
      List.intercalate [','] hosts ++ pyUnquote rest := by
  induction hosts with
  | nil => simp [intercalate_nil]
  | cons a r ih =>
    cases r with
    | nil =>
      rw [intercalate_single, intercalate_single]
      exact pyUnquote_append rest (charset_not_mem (h a (by simp)) (by decide))
    | cons b r2 =>
      rw [intercalate_cons_cons, intercalate_cons_cons]
      have hpa : '%' ∉ a := charset_not_mem (h a (by simp)) (by decide)
      rw [List.append_assoc, List.append_assoc, List.append_assoc,
        List.append_assoc]
      rw [pyUnquote_append _ hpa]
      rw [show (['%', '2', 'C'] : PyStr) ++
          (List.intercalate ['%', '2', 'C'] (b :: r2) ++ rest) =
          '%' :: '2' :: 'C' ::
            (List.intercalate ['%', '2', 'C'] (b :: r2) ++ rest) from rfl]
      rw [@pyUnquote_pct '2' 'C'
        (List.intercalate ['%', '2', 'C'] (b :: r2) ++ rest) 2 12
        (by decide) (by decide)]
      rw [ih (fun x hx => h x (by simp [hx]))]
      rw [show Char.ofNat (16 * 2 + 12) = ',' from rfl]
      rfl

/-- The characters of the parenthesized percent-joined host segment. -/
theorem mem_parenHosts {hosts : List PyStr} {c : Char}
    (hc : c ∈ '(' :: (List.intercalate ['%', '2', 'C'] hosts ++ [')'])) :
    c = '(' ∨ c = ')' ∨ c = '%' ∨ c = '2' ∨ c = 'C' ∨ ∃ x ∈ hosts, c ∈ x := by
  rcases List.mem_cons.mp hc with rfl | h2
  · exact Or.inl rfl
  rcases List.mem_append.mp h2 with h3 | h3
  · rcases mem_intercalate h3 with h4 | h4
    · rcases List.mem_cons.mp h4 with rfl | h5
      · exact Or.inr (Or.inr (Or.inl rfl))
      rcases List.mem_cons.mp h5 with rfl | h6
      · exact Or.inr (Or.inr (Or.inr (Or.inl rfl)))
      rcases List.mem_cons.mp h6 with rfl | h7
      · exact Or.inr (Or.inr (Or.inr (Or.inr (Or.inl rfl))))
      · cases h7
    · exact Or.inr (Or.inr (Or.inr (Or.inr (Or.inr h4))))
  · rcases List.mem_cons.mp h3 with rfl | h4
    · exact Or.inr (Or.inl rfl)
    · cases h4

/-- Non-membership in the parenthesized host segment, from non-membership
in its constituent parts. -/
theorem not_mem_parenHosts {hosts : List PyStr} {c : Char}
    (h1 : c ≠ '(') (h2 : c ≠ ')') (h3 : c ≠ '%') (h4 : c ≠ '2') (h5 : c ≠ 'C')
    (h6 : ∀ x ∈ hosts, c ∉ x) :
    c ∉ '(' :: (List.intercalate ['%', '2', 'C'] hosts ++ [')']) := by
  intro hc
  rcases mem_parenHosts hc with he | he | he | he | he | ⟨x, hx, hcx⟩
  · exact h1 he
  · exact h2 he
  · exact h3 he
  · exact h4 he
  · exact h5 he
  · exact h6 x hx hcx

/-- `username` of a netloc that is just the parenthesized host list. -/
theorem pyUsername_hosts {hosts : List PyStr}
    (h : ∀ x ∈ hosts, ∀ c ∈ x, lowerHostChar c = true) :
    pyUsername ('(' :: (List.intercalate ['%', '2', 'C'] hosts ++ [')'])) =
      none :=
  pyUsername_no_at (not_mem_parenHosts (by decide) (by decide) (by decide)
    (by decide) (by decide)
    (fun x hx => charset_not_mem (h x hx) (by decide)))

/-- `username` of a netloc with a userinfo part before the host list. -/
theorem pyUsername_user_hosts {user : PyStr} {hosts : List PyStr}
    (hu : ∀ c ∈ user, alwaysSafe c = true)
    (h : ∀ x ∈ hosts, ∀ c ∈ x, lowerHostChar c = true) :
    pyUsername (user ++ '@' ::
        ('(' :: (List.intercalate ['%', '2', 'C'] hosts ++ [')']))) =
      some user :=
  pyUsername_at (charset_not_mem hu (by decide))
    (not_mem_parenHosts (by decide) (by decide) (by decide) (by decide)
      (by decide) (fun x hx => charset_not_mem (h x hx) (by decide)))
    (charset_not_mem hu (by decide))

/-- Splitting the parenthesized host segment at its first `%` and
lowercasing the prefix gives the segment back: either there is no `%`
(single host) and every character is already lowercase, or the prefix of
the first `%` is the opening bracket plus the first (lowercase) host. -/
theorem pctSplit_parenHosts {hosts : List PyStr}
    (h : ∀ x ∈ hosts, ∀ c ∈ x, lowerHostChar c = true) :
    (splitOnceSub ['%']
        ('(' :: (List.intercalate ['%', '2', 'C'] hosts ++ [')'])) = none ∧
      pyLower ('(' :: (List.intercalate ['%', '2', 'C'] hosts ++ [')'])) =
        '(' :: (List.intercalate ['%', '2', 'C'] hosts ++ [')'])) ∨
    (∃ a b, splitOnceSub ['%']
        ('(' :: (List.intercalate ['%', '2', 'C'] hosts ++ [')'])) =
          some (a, b) ∧
      pyLower a ++ '%' :: b =
        '(' :: (List.intercalate ['%', '2', 'C'] hosts ++ [')'])) := by
  cases hosts with
  | nil =>
    left
    constructor
    · exact splitOnceSub_not_mem (by decide)
    · rfl
  | cons a r =>
    cases r with
    | nil =>
      left
      have hpa : '%' ∉ a := charset_not_mem (h a (by simp)) (by decide)
      rw [intercalate_single]
      constructor
      · exact splitOnceSub_not_mem (not_mem_paren (by decide) (by decide) hpa)
      · apply pyLower_id
        intro c hc
        rcases List.mem_cons.mp hc with rfl | h2
        · decide
        rcases List.mem_append.mp h2 with h3 | h3
        · exact lowerHostChar_toLower (h a (by simp) c h3)
        · rcases List.mem_cons.mp h3 with rfl | h4
          · decide
          · cases h4
    | cons b r2 =>
      right
      have hpa : '%' ∉ '(' :: a := by
        intro hm
        rcases List.mem_cons.mp hm with he | hm2
        · cases he
        · exact charset_not_mem (h a (by simp)) (by decide) hm2
      have hshape : '(' ::
          (List.intercalate ['%', '2', 'C'] (a :: b :: r2) ++ [')']) =
          ('(' :: a) ++ '%' :: ('2' :: 'C' ::
            (List.intercalate ['%', '2', 'C'] (b :: r2) ++ [')'])) := by
        rw [intercalate_cons_cons]
        simp
      refine ⟨'(' :: a, '2' :: 'C' ::
        (List.intercalate ['%', '2', 'C'] (b :: r2) ++ [')']), ?_, ?_⟩
      · rw [hshape]
        exact splitOnceSub_cons_self _ _ hpa
      · rw [pyLower_id (fun c hc => by
          rcases List.mem_cons.mp hc with rfl | h2
          · decide
          · exact lowerHostChar_toLower (h a (by simp) c h2))]
        rw [hshape]

/-- `hostname` of a netloc that is just the parenthesized host list. -/
theorem pyHostname_hosts {hosts : List PyStr}
    (h : ∀ x ∈ hosts, ∀ c ∈ x, lowerHostChar c = true) :
    pyHostname ('(' :: (List.intercalate ['%', '2', 'C'] hosts ++ [')'])) =
      some ('(' :: (List.intercalate ['%', '2', 'C'] hosts ++ [')'])) := by
  rw [pyHostname_preNorm
    (not_mem_parenHosts (by decide) (by decide) (by decide) (by decide)
      (by decide) (fun x hx => charset_not_mem (h x hx) (by decide)))
    (not_mem_parenHosts (by decide) (by decide) (by decide) (by decide)
      (by decide) (fun x hx => charset_not_mem (h x hx) (by decide)))
    (not_mem_parenHosts (by decide) (by decide) (by decide) (by decide)
      (by decide) (fun x hx => charset_not_mem (h x hx) (by decide)))
    (by simp)]
  rcases pctSplit_parenHosts h with ⟨hnone, hlow⟩ | ⟨a, b, hsome, heq⟩
  · rw [hnone]
    simp only []
    rw [hlow]
  · rw [hsome]
    simp only []
    rw [heq]

/-- `hostname` of a netloc with a userinfo part before the host list. -/
theorem pyHostname_user_hosts {user : PyStr} {hosts : List PyStr}
    (hu : ∀ c ∈ user, alwaysSafe c = true)
    (h : ∀ x ∈ hosts, ∀ c ∈ x, lowerHostChar c = true) :
    pyHostname (user ++ '@' ::
        ('(' :: (List.intercalate ['%', '2', 'C'] hosts ++ [')']))) =
      some ('(' :: (List.intercalate ['%', '2', 'C'] hosts ++ [')'])) := by
  rw [pyHostname_at (charset_not_mem hu (by decide))
    (not_mem_parenHosts (by decide) (by decide) (by decide) (by decide)
      (by decide) (fun x hx => charset_not_mem (h x hx) (by decide)))
    (not_mem_parenHosts (by decide) (by decide) (by decide) (by decide)
      (by decide) (fun x hx => charset_not_mem (h x hx) (by decide)))
    (not_mem_parenHosts (by decide) (by decide) (by decide) (by decide)
      (by decide) (fun x hx => charset_not_mem (h x hx) (by decide)))
    (by simp)]
  rcases pctSplit_parenHosts h with ⟨hnone, hlow⟩ | ⟨a, b, hsome, heq⟩
  · rw [hnone]
    simp only []
    rw [hlow]
  · rw [hsome]
    simp only []
    rw [heq]

/-- Unquoting the parenthesized host segment restores the commas. -/
theorem pyUnquote_parenHosts {hosts : List PyStr}
    (h : ∀ x ∈ hosts, ∀ c ∈ x, lowerHostChar c = true) :
    pyUnquote ('(' :: (List.intercalate ['%', '2', 'C'] hosts ++ [')'])) =
      '(' :: (List.intercalate [','] hosts ++ [')']) := by
  rw [pyUnquote_cons_ne _ (by decide)]
  rw [unquote_hostjoin h [')']]
  rfl

/-! ## Helper lemmas: the query string round trip -/

theorem pyQuotePlus_id {s : PyStr} (h : ∀ c ∈ s, alwaysSafe c = true) :
    pyQuotePlus [] s = s := by
  unfold pyQuotePlus
  rw [if_neg (charset_not_mem h (by decide))]
  exact pyQuote_id (fun c hc => Or.inl (h c hc))

theorem pyUnquotePlus_id {s : PyStr} (h : ∀ c ∈ s, alwaysSafe c = true) :
    pyUnquotePlus s = s := by
  unfold pyUnquotePlus
  have hmap : s.map (fun c => if c = '+' then ' ' else c) = s := by
    conv_rhs => rw [← List.map_id s]
    apply List.map_congr_left
    intro c hc
    rw [if_neg (charset_ne (h c hc) (by decide))]
    rfl
  rw [hmap]
  exact pyUnquote_not_mem (charset_not_mem h (by decide))

/-- `urlencode` on an all-safe mapping is the plain `k=v`-with-`&` join. -/
theorem pyUrlencode_eq {l : List (PyStr × PyStr)}
    (h : ∀ p ∈ l, (∀ c ∈ p.1, alwaysSafe c = true) ∧
      ∀ c ∈ p.2, alwaysSafe c = true) :
    pyUrlencode l =
      List.intercalate ['&'] (l.map (fun p => p.1 ++ '=' :: p.2)) := by
  unfold pyUrlencode
  congr 1
  apply List.map_congr_left
  intro p hp
  rw [pyQuotePlus_id (h p hp).1, pyQuotePlus_id (h p hp).2]

/-- The characters of an `urlencode` of an all-safe mapping. -/
theorem mem_urlencode {l : List (PyStr × PyStr)} {c : Char}
    (h : ∀ p ∈ l, (∀ c ∈ p.1, alwaysSafe c = true) ∧
      ∀ c ∈ p.2, alwaysSafe c = true)
    (hc : c ∈ pyUrlencode l) :
    alwaysSafe c = true ∨ c = '&' ∨ c = '=' := by
  rw [pyUrlencode_eq h] at hc
  rcases mem_intercalate hc with h1 | ⟨x, hx, hcx⟩
  · exact Or.inr (Or.inl (by simpa using h1))
  · obtain ⟨p, hp, rfl⟩ := List.mem_map.mp hx
    rcases List.mem_append.mp hcx with h2 | h2
    · exact Or.inl ((h p hp).1 c h2)
    · rcases List.mem_cons.mp h2 with rfl | h3
      · exact Or.inr (Or.inr rfl)
      · exact Or.inl ((h p hp).2 c h3)

theorem intercalate_ne_nil {sep : PyStr} {l : List PyStr} (hl : l ≠ [])
    (h : ∀ x ∈ l, x ≠ []) : List.intercalate sep l ≠ [] := by
  obtain ⟨a, r, rfl⟩ := List.exists_cons_of_ne_nil hl
  cases r with
  | nil =>
    rw [intercalate_single]
    exact h a (by simp)
  | cons b r2 =>
    rw [intercalate_cons_cons]
    intro he
    rcases List.append_eq_nil.mp he with ⟨h1, _⟩
    rcases List.append_eq_nil.mp h1 with ⟨h2, _⟩
    exact h a (by simp) h2

/-- Folding `qslStep` over plain `k=v` parts appends the pairs. -/
theorem foldlM_qslStep {l : List (PyStr × PyStr)} (acc : List (PyStr × PyStr))
    (h : ∀ p ∈ l, p.2 ≠ [] ∧ (∀ c ∈ p.1, alwaysSafe c = true) ∧
      ∀ c ∈ p.2, alwaysSafe c = true) :
    (l.map (fun p => p.1 ++ '=' :: p.2)).foldlM qslStep acc = .ok (acc ++ l) := by
  induction l generalizing acc with
  | nil => simp; rfl
  | cons p r ih =>
    obtain ⟨hv, hk, hvs⟩ := h p (by simp)
    rw [List.map_cons, List.foldlM_cons]
    have hstep : qslStep acc (p.1 ++ '=' :: p.2) = .ok (acc ++ [p]) := by
      unfold qslStep
      rw [splitOnceSub_cons_self p.1 p.2 (charset_not_mem hk (by decide))]
      simp only []
      rw [if_pos (fun h0 => hv (List.length_eq_zero.mp h0))]
      rw [pyUnquotePlus_id hk, pyUnquotePlus_id hvs]
    rw [hstep, except_bind_ok]
    rw [ih (acc ++ [p]) (fun q hq => h q (by simp [hq]))]
    rw [List.append_assoc]
    rfl

/-- `parse_qsl(strict)` inverts `urlencode` on a non-empty all-safe
mapping with non-empty values. -/
theorem parseQsl_urlencode {l : List (PyStr × PyStr)} (hne : l ≠ [])
    (h : ∀ p ∈ l, p.1 ≠ [] ∧ p.2 ≠ [] ∧ (∀ c ∈ p.1, alwaysSafe c = true) ∧
      ∀ c ∈ p.2, alwaysSafe c = true) :
    parseQsl (pyUrlencode l) = .ok l := by
  rw [pyUrlencode_eq (fun p hp => ⟨(h p hp).2.2.1, (h p hp).2.2.2⟩)]
  unfold parseQsl
  rw [if_neg (intercalate_ne_nil (by simpa using hne) (by
    intro x hx
    obtain ⟨p, hp, rfl⟩ := List.mem_map.mp hx
    simp))]
  rw [show pySplitChar '&'
      (List.intercalate ['&'] (l.map (fun p => p.1 ++ '=' :: p.2))) =
      l.map (fun p => p.1 ++ '=' :: p.2) from
    pySplitChar_intercalate (by simpa using hne) (by
      intro x hx
      obtain ⟨p, hp, rfl⟩ := List.mem_map.mp hx
      intro hmem
      rcases List.mem_append.mp hmem with hm | hm
      · exact absurd ((h p hp).2.2.1 _ hm) (by decide)
      · rcases List.mem_cons.mp hm with he | hm2
        · exact absurd he (by decide)
        · exact absurd ((h p hp).2.2.2 _ hm2) (by decide))]
  rw [foldlM_qslStep []
    (fun p hp => ⟨(h p hp).2.1, (h p hp).2.2.1, (h p hp).2.2.2⟩)]
  rfl

/-- Appending a fresh key to the `parse_qs` dict inserts it at the end. -/
theorem dictAppend_new {d : List (PyStr × List PyStr)} {k : PyStr} (v : PyStr)
    (h : k ∉ d.map Prod.fst) : dictAppend d k v = d ++ [(k, [v])] := by
  induction d with
  | nil => rfl
  | cons q r ih =>
    obtain ⟨k2, vs⟩ := q
    simp only [List.map_cons, List.mem_cons, not_or] at h
    unfold dictAppend
    rw [if_neg (fun he => h.1 he.symm)]
    rw [ih h.2]
    rfl

/-- Folding `dictAppend` over pairs with distinct keys groups each value
singly, in order. -/
theorem foldl_dictAppend {l : List (PyStr × PyStr)} :
    ∀ (d : List (PyStr × List PyStr)),
    (d.map Prod.fst ++ l.map Prod.fst).Nodup →
    l.foldl (fun d p => dictAppend d p.1 p.2) d =
      d ++ l.map (fun p => (p.1, [p.2])) := by
  induction l with
  | nil => intro d _; simp
  | cons p r ih =>
    intro d hd
    rw [List.map_cons] at hd
    have hdisj := (List.nodup_append.mp hd).2.2
    have hknew : p.1 ∉ d.map Prod.fst := fun hmem => hdisj hmem (by simp)
    rw [List.foldl_cons]
    rw [dictAppend_new p.2 hknew]
    rw [ih (d ++ [(p.1, [p.2])]) (by
      rw [List.map_append, List.append_assoc]
      simpa using hd)]
    simp

/-- `parse_qs(strict)` inverts `urlencode` on a non-empty all-safe mapping
with distinct keys and non-empty values, grouping each value singly. -/
theorem parseQs_urlencode {l : List (PyStr × PyStr)} (hne : l ≠ [])
    (hnodup : (l.map Prod.fst).Nodup)
    (h : ∀ p ∈ l, p.1 ≠ [] ∧ p.2 ≠ [] ∧ (∀ c ∈ p.1, alwaysSafe c = true) ∧
      ∀ c ∈ p.2, alwaysSafe c = true) :
    parseQs (pyUrlencode l) = .ok (l.map (fun p => (p.1, [p.2]))) := by
  unfold parseQs
  rw [parseQsl_urlencode hne h, except_bind_ok]
  rw [foldl_dictAppend [] (by simpa using hnodup)]
  rfl

/-- Re-joining the singly-grouped values is the identity. -/
theorem map_joinComma_single (l : List (PyStr × PyStr)) :
    (l.map (fun p => (p.1, [p.2]))).map (fun p => (p.1, joinComma p.2)) = l := by
  rw [List.map_map]
  conv_rhs => rw [← List.map_id l]
  apply List.map_congr_left
  intro p hp
  show (p.1, joinComma [p.2]) = id p
  rw [show joinComma [p.2] = p.2 from intercalate_single _ _]
  rfl

/-- The characters of the optional `?query` suffix. -/
theorem mem_qmark_query {q : PyStr} {c : Char}
    (hc : c ∈ (if q = [] then [] else '?' :: q)) : c = '?' ∨ c ∈ q := by
  by_cases hq : q = []
  · rw [if_pos hq] at hc
    cases hc
  · rw [if_neg hq] at hc
    exact List.mem_cons.mp hc

/-- Evaluation of `_UriData.from_uri` after a successful `urlparse` whose
netloc carries the percent-joined host list. -/
theorem from_uri_steps {uri scheme netloc path query : PyStr}
    {user : PyStr} {hosts : List PyStr} {options : List (PyStr × PyStr)}
    (hparse : pyUrlparse uri = Except.ok ⟨scheme, netloc, path, query⟩)
    (huser : pyUnquote ((pyUsername netloc).getD []) = user)
    (hhost : pyHostname netloc =
      some ('(' :: (List.intercalate ['%', '2', 'C'] hosts ++ [')'])))
    (hunq : pyUnquote
        ('(' :: (List.intercalate ['%', '2', 'C'] hosts ++ [')'])) =
      '(' :: (List.intercalate [','] hosts ++ [')']))
    (hhosts_ne : hosts ≠ []) (hcomma : ∀ x ∈ hosts, ',' ∉ x)
    (hpath : pyUnquote path = path)
    (hquery : (if query ≠ [] then parseQs query else .ok []) =
      .ok (options.map (fun p => (p.1, [p.2]))))
    (hscheme_ne : scheme ≠ []) (hpath_ne : path ≠ []) :
    UriData.from_uri uri = .ok ⟨scheme, hosts, user, path, options⟩ := by
  unfold UriData.from_uri
  rw [hparse, liftValueError_ok, except_bind_ok]
  simp only []
  rw [huser, hhost]
  simp only [Option.getD_some]
  rw [hunq]
  rw [if_neg (by
    push_neg
    refine ⟨by simp, rfl, ?_⟩
    rw [show ('(' :: (List.intercalate [','] hosts ++ [')'])) =
      ('(' :: List.intercalate [','] hosts) ++ [')'] from rfl]
    exact getLastD_concat _ _ _)]
  rw [show (('(' :: (List.intercalate [','] hosts ++ [')'])).drop 1).dropLast =
      List.intercalate [','] hosts from by
    rw [show ('(' :: (List.intercalate [','] hosts ++ [')'])).drop 1 =
      List.intercalate [','] hosts ++ [')'] from rfl]
    exact List.dropLast_concat]
  rw [pySplitChar_intercalate hhosts_ne hcomma]
  rw [hpath, hquery]
  simp only []
  rw [map_joinComma_single]
  rw [show UriData.mk? scheme hosts user path options =
      .ok ⟨scheme, hosts, user, path, options⟩ from by
    unfold UriData.mk?
    rw [if_neg hscheme_ne, if_neg hhosts_ne, if_neg hpath_ne]]

/-! ## Helper lemmas: the assembled URI is clean and well-delimited -/

theorem clean_parenHosts {hosts : List PyStr}
    (h : ∀ x ∈ hosts, ∀ c ∈ x, lowerHostChar c = true) :
    ∀ c ∈ '(' :: (List.intercalate ['%', '2', 'C'] hosts ++ [')']),
      c ≠ '\t' ∧ c ≠ '\x0d' ∧ c ≠ '\n' := by
  intro c hc
  rcases mem_parenHosts hc with rfl | rfl | rfl | rfl | rfl | ⟨x, hx, hcx⟩
  · exact ⟨by decide, by decide, by decide⟩
  · exact ⟨by decide, by decide, by decide⟩
  · exact ⟨by decide, by decide, by decide⟩
  · exact ⟨by decide, by decide, by decide⟩
  · exact ⟨by decide, by decide, by decide⟩
  · exact clean_of_lowerHost (h x hx c hcx)

theorem net_parenHosts {hosts : List PyStr}
    (h : ∀ x ∈ hosts, ∀ c ∈ x, lowerHostChar c = true) :
    ∀ c ∈ '(' :: (List.intercalate ['%', '2', 'C'] hosts ++ [')']),
      ¬(c = '/' ∨ c = '?' ∨ c = '#' ∨ c = '[' ∨ c = ']') := by
  intro c hc
  rcases mem_parenHosts hc with rfl | rfl | rfl | rfl | rfl | ⟨x, hx, hcx⟩
  · decide
  · decide
  · decide
  · decide
  · decide
  · exact not_delim_of_lowerHost (h x hx c hcx)

theorem clean_user_parenHosts {user : PyStr} {hosts : List PyStr}
    (hu : ∀ c ∈ user, alwaysSafe c = true)
    (h : ∀ x ∈ hosts, ∀ c ∈ x, lowerHostChar c = true) :
    ∀ c ∈ user ++ '@' ::
        ('(' :: (List.intercalate ['%', '2', 'C'] hosts ++ [')'])),
      c ≠ '\t' ∧ c ≠ '\x0d' ∧ c ≠ '\n' := by
  intro c hc
  rcases List.mem_append.mp hc with hc1 | hc1
  · exact clean_of_alwaysSafe (hu c hc1)
  rcases List.mem_cons.mp hc1 with rfl | hc2
  · exact ⟨by decide, by decide, by decide⟩
  · exact clean_parenHosts h c hc2

theorem net_user_parenHosts {user : PyStr} {hosts : List PyStr}
    (hu : ∀ c ∈ user, alwaysSafe c = true)
    (h : ∀ x ∈ hosts, ∀ c ∈ x, lowerHostChar c = true) :
    ∀ c ∈ user ++ '@' ::
        ('(' :: (List.intercalate ['%', '2', 'C'] hosts ++ [')'])),
      ¬(c = '/' ∨ c = '?' ∨ c = '#' ∨ c = '[' ∨ c = ']') := by
  intro c hc
  rcases List.mem_append.mp hc with hc1 | hc1
  · exact not_delim_of_alwaysSafe (hu c hc1)
  rcases List.mem_cons.mp hc1 with rfl | hc2
  · decide
  · exact net_parenHosts h c hc2

theorem clean_qopt {options : List (PyStr × PyStr)}
    (h : ∀ p ∈ options, (∀ c ∈ p.1, alwaysSafe c = true) ∧
      ∀ c ∈ p.2, alwaysSafe c = true) :
    ∀ c ∈ (if pyUrlencode options = [] then []
        else '?' :: pyUrlencode options),
      c ≠ '\t' ∧ c ≠ '\x0d' ∧ c ≠ '\n' := by
  intro c hc
  rcases mem_qmark_query hc with rfl | hc2
  · exact ⟨by decide, by decide, by decide⟩
  · rcases mem_urlencode h hc2 with hx | rfl | rfl
    · exact clean_of_alwaysSafe hx
    · exact ⟨by decide, by decide, by decide⟩
    · exact ⟨by decide, by decide, by decide⟩

/-- The `urlsplit` byte scrub is the identity on a URI assembled from
scheme-safe, netloc-clean, path-safe and query-clean parts. -/
theorem clean_uri_chars {scheme netloc path qopt : PyStr}
    (hsch : ∀ c ∈ scheme, schemeLowerChar c = true)
    (hnet : ∀ c ∈ netloc, c ≠ '\t' ∧ c ≠ '\x0d' ∧ c ≠ '\n')
    (hp : ∀ c ∈ path, alwaysSafe c = true ∨ c = '/')
    (hq : ∀ c ∈ qopt, c ≠ '\t' ∧ c ≠ '\x0d' ∧ c ≠ '\n') :
    removeUnsafe (scheme ++ ':' :: '/' :: '/' :: (netloc ++ (path ++ qopt))) =
      scheme ++ ':' :: '/' :: '/' :: (netloc ++ (path ++ qopt)) := by
  apply removeUnsafe_eq_self
  intro c hc
  rcases List.mem_append.mp hc with hc1 | hc1
  · exact clean_of_alwaysSafe (schemeLowerChar_alwaysSafe (hsch c hc1))
  rcases List.mem_cons.mp hc1 with rfl | hc2
  · exact ⟨by decide, by decide, by decide⟩
  rcases List.mem_cons.mp hc2 with rfl | hc3
  · exact ⟨by decide, by decide, by decide⟩
  rcases List.mem_cons.mp hc3 with rfl | hc4
  · exact ⟨by decide, by decide, by decide⟩
  rcases List.mem_append.mp hc4 with hc5 | hc5
  · exact hnet c hc5
  rcases List.mem_append.mp hc5 with hc6 | hc6
  · rcases hp c hc6 with hx | rfl
    · exact clean_of_alwaysSafe hx
    · exact ⟨by decide, by decide, by decide⟩
  · exact hq c hc6

/-! ## Claim theorem C1 amended -/

/-- Claim C1, amended: decoding inverts encoding on every `_UriData` in the
serialization-safe fragment `WireSafe` — non-empty lowercase alphanumeric
scheme, hosts over lowercase-unreserved characters, user and option
keys/values over the unreserved alphabet (non-empty values and distinct
non-empty keys), and an absolute unreserved-or-slash path; the
counterexample theorem shows the round trip fails outside the fragment (an
uppercase host letter comes back lowercased, which is neither reordering
nor escaping canonicalization). -/
theorem C1_roundtrip_amended (d : UriData) (h : WireSafe d) :
    UriData.from_uri (UriData.toStr d) = .ok d := by
  obtain ⟨scheme, hosts, user, path, options⟩ := d
  obtain ⟨hs_ne, hs_head, hs_chars, hh_ne, hh_chars, hu_chars, hp_head,
    hp_chars, ho_kne, ho_vne, ho_chars, ho_nodup⟩ := h
  simp only [] at hs_ne hs_head hs_chars hh_ne hh_chars hu_chars hp_head hp_chars ho_kne ho_vne ho_chars ho_nodup
  have hpath_ne : path ≠ [] := by
    intro he
    rw [he] at hp_head
    exact absurd hp_head (by decide)
  have hpath_not : ∀ c2 : Char, alwaysSafe c2 = false → c2 ≠ '/' →
      c2 ∉ path := by
    intro c2 hs2 hne2 hm
    rcases hp_chars c2 hm with hx | hx
    · rw [hx] at hs2
      cases hs2
    · exact hne2 hx
  have hqu : pyQuote ['/'] user = user :=
    pyQuote_id (fun c hc => Or.inl (hu_chars c hc))
  have hqp : pyQuote ['/'] path = path :=
    pyQuote_id (fun c hc => (hp_chars c hc).elim Or.inl
      (fun he => Or.inr (by simp [he])))
  have hqh : pyQuote ['/'] (List.intercalate [','] hosts) =
      List.intercalate ['%', '2', 'C'] hosts := quote_hostjoin hh_chars
  have hplo : pyLower scheme = scheme :=
    pyLower_id (fun c hc => schemeLowerChar_toLower (hs_chars c hc))
  have hupath : pyUnquote path = path :=
    pyUnquote_not_mem (hpath_not '%' (by decide) (by decide))
  have hcomma : ∀ x ∈ hosts, ',' ∉ x :=
    fun x hx => charset_not_mem (hh_chars x hx) (by decide)
  have hquery : (if pyUrlencode options ≠ [] then parseQs (pyUrlencode options)
      else .ok []) = .ok (options.map (fun p => (p.1, [p.2]))) := by
    by_cases ho : options = []
    · subst ho
      rw [if_neg (by decide)]
      rfl
    · rw [if_pos (pyUrlencode_ne_nil ho)]
      exact parseQs_urlencode ho ho_nodup
        (fun p hp => ⟨ho_kne p hp, ho_vne p hp, (ho_chars p hp).1,
          (ho_chars p hp).2⟩)
  have hD : (if options ≠ [] then '?' :: pyUrlencode options else []) =
      (if pyUrlencode options = [] then []
        else '?' :: pyUrlencode options) := by
    by_cases ho : options = []
    · rw [if_neg (not_not_intro ho), if_pos (pyUrlencode_nil_iff.mpr ho)]
    · rw [if_pos ho, if_neg (fun he => ho (pyUrlencode_nil_iff.mp he))]
  rw [toStr_decomposition _ hs_ne]
  simp only [hqu, hqp, hqh]
  rw [show (if path ≠ [] ∧ path.headD ' ' ≠ '/' then '/' :: path else path) =
    path from if_neg (fun hco => hco.2 hp_head)]
  rw [hD]
  by_cases hu : user = []
  · subst hu
    rw [show (if ([] : PyStr) ≠ [] then ([] : PyStr) ++ ['@'] else []) = []
      from if_neg (fun hne => hne rfl)]
    have hparse := pyUrlparse_wellformed scheme
      ('(' :: (List.intercalate ['%', '2', 'C'] hosts ++ [')']))
      path (pyUrlencode options)
      hs_ne (isAlpha_of_isLower hs_head)
      (fun c hc => schemeLowerChar_schemeChars (hs_chars c hc))
      (charset_not_mem hs_chars (by decide))
      (clean_uri_chars hs_chars (clean_parenHosts hh_chars) hp_chars
        (clean_qopt ho_chars))
      (net_parenHosts hh_chars)
      hp_head hpath_ne (hpath_not '?' (by decide) (by decide))
      (hpath_not ';' (by decide) (by decide))
    rw [hplo] at hparse
    have huser : pyUnquote ((pyUsername
        ('(' :: (List.intercalate ['%', '2', 'C'] hosts ++ [')']))).getD []) =
        ([] : PyStr) := by
      rw [pyUsername_hosts hh_chars]
      rfl
    have hmain := from_uri_steps hparse huser (pyHostname_hosts hh_chars)
      (pyUnquote_parenHosts hh_chars)
      hh_ne hcomma hupath hquery hs_ne hpath_ne
    simpa only [List.append_assoc, List.cons_append, List.nil_append]
      using hmain
  · rw [if_pos hu]
    have hparse := pyUrlparse_wellformed scheme
      (user ++ '@' ::
        ('(' :: (List.intercalate ['%', '2', 'C'] hosts ++ [')'])))
      path (pyUrlencode options)
      hs_ne (isAlpha_of_isLower hs_head)
      (fun c hc => schemeLowerChar_schemeChars (hs_chars c hc))
      (charset_not_mem hs_chars (by decide))
      (clean_uri_chars hs_chars (clean_user_parenHosts hu_chars hh_chars)
        hp_chars (clean_qopt ho_chars))
      (net_user_parenHosts hu_chars hh_chars)
      hp_head hpath_ne (hpath_not '?' (by decide) (by decide))
      (hpath_not ';' (by decide) (by decide))
    rw [hplo] at hparse
    have huser : pyUnquote ((pyUsername (user ++ '@' ::
        ('(' :: (List.intercalate ['%', '2', 'C'] hosts ++ [')'])))).getD []) =
        user := by
      rw [pyUsername_user_hosts hu_chars hh_chars]
      simp only [Option.getD_some]
      exact pyUnquote_not_mem (charset_not_mem hu_chars (by decide))
    have hmain := from_uri_steps hparse huser
      (pyHostname_user_hosts hu_chars hh_chars)
      (pyUnquote_parenHosts hh_chars)
      hh_ne hcomma hupath hquery hs_ne hpath_ne
    simpa only [List.append_assoc, List.cons_append, List.nil_append]
      using hmain

/-- Claim C1, witness: a concrete in-fragment value — two hosts, a user, a
path and one option — encodes and decodes back to itself. -/
theorem C1_roundtrip_witness :
    UriData.from_uri (UriData.toStr (⟨"cephfs".toList,
        ["m1".toList, "m2".toList], "u".toList, "/x".toList,
        [("a".toList, "b".toList)]⟩ : UriData)) =
      .ok ⟨"cephfs".toList, ["m1".toList, "m2".toList], "u".toList,
        "/x".toList, [("a".toList, "b".toList)]⟩ :=
  C1_roundtrip_amended _ ⟨by decide, by decide, by decide, by decide,
    by decide, by decide, by decide, by decide, by decide, by decide,
    by decide, by decide⟩

end FsInfo
